import Mathlib

/-
Verification of the iris-lib Chat module (chat.js).

The development shallowly embeds the Chat class and the parts of its
environment it observes:

* Gun.SEA primitives (work, secret, encrypt, decrypt) are external
  cryptographic black boxes; they are modelled by executable idealizations
  that keep exactly the contracts the specification assigns to them
  (deterministic collision-resistant hashing, symmetric Diffie-Hellman
  secrets, authenticated symmetric encryption).
* The gun graph store is modelled by a path-indexed value map, and a
  subscription callback becomes a step function over an explicit event
  trace, mirroring the single-threaded callback semantics of the source.
* Asynchronous reads that suspend until a value is defined
  (util.gunOnceDefined) are modelled with Option: none is a value that
  never arrives.
-/

namespace IrisChat

/-- Model of a SEA keypair as the Chat module uses it: pub is the signing
public key, epub the encryption public key. -/
structure KeyPair where
  pub : String
  epub : String
deriving DecidableEq

/-- Idealized model of Gun.SEA.work(data, null, null, SHA-256): a
deterministic, collision-resistant hash, modelled as an injective function
on strings. -/
def seaWork (s : String) : String := "H(" ++ s ++ ")"

/-- Lexicographic comparison on character lists, used to order the two
encryption keys canonically inside the idealized shared secret. -/
def listLe : List Char → List Char → Bool
  | [], _ => true
  | _ :: _, [] => false
  | c :: cs, d :: ds =>
    if c.toNat < d.toNat then true
    else if d.toNat < c.toNat then false
    else listLe cs ds

/-- Idealized Diffie-Hellman combination of two encryption public keys,
symmetric in its two arguments. -/
def dhSecret (a b : String) : String :=
  if listLe a.data b.data then "DH(" ++ a ++ "|" ++ b ++ ")"
  else "DH(" ++ b ++ "|" ++ a ++ ")"

/-- Idealized model of Gun.SEA.secret(epub, pair): the shared secret
derived from a remote encryption public key and the local keypair. -/
def seaSecret (epub : String) (pair : KeyPair) : String := dhSecret epub pair.epub

/-- Idealized model of Gun.SEA.encrypt of a string plaintext under a
shared secret. -/
def seaEncrypt (m secret : String) : String := "E(" ++ secret ++ ";" ++ m ++ ")"

/-- The gun user graph as far as Chat reads other identities: each public
key may have published an encryption public key under user(pub).get(epub).
none models an identity whose epub never arrives, in which case
util.gunOnceDefined suspends forever. -/
structure GunUsers where
  epubOf : String → Option String

/-- Values stored at a graph node: undefinedVal is a node never written, null is
an explicit put(null) tombstone. -/
inductive GunVal where
  | undefinedVal
  | null
  | str (s : String)
  | num (n : Nat)
deriving DecidableEq

/-- A graph-store path relative to a user namespace. -/
abbrev GunPath := List String

/-- The store contents of one user namespace. -/
def Store := GunPath → GunVal

/-- One put into the store. -/
def putAt (s : Store) (p : GunPath) (v : GunVal) : Store :=
  fun q => if q = p then v else s q

/-- Apply a list of puts in order (earlier writes first, later writes
overwrite). -/
def applyWrites (ws : List (GunPath × GunVal)) (s : Store) : Store :=
  ws.foldl (fun st w => putAt st w.1 w.2) s

/-- The last value written to path q by the write list, if any. -/
def lastW (q : GunPath) : List (GunPath × GunVal) → Option GunVal
  | [] => none
  | (p, v) :: ws =>
    match lastW q ws with
    | some v2 => some v2
    | none => if p = q then some v else none

/-- Chat.getOurSecretChatId(gun, pub, pair), the static variant: hash of
the shared secret concatenated with the remote public key. -/
def getOurSecretChatIdStatic (gun : GunUsers) (pub : String) (pair : KeyPair) :
    Option String :=
  (gun.epubOf pub).map fun epub => seaWork (seaSecret epub pair ++ pub)

/-- Chat.getTheirSecretChatId(gun, pub, pair), the static variant: hash of
the shared secret concatenated with the local public key. -/
def getTheirSecretChatIdStatic (gun : GunUsers) (pub : String) (pair : KeyPair) :
    Option String :=
  (gun.epubOf pub).map fun epub => seaWork (seaSecret epub pair ++ pair.pub)

/-- Lookup in an association list, modelling JS object property access on
the memoization maps of a Chat instance. -/
def assoc (p : String) : List (String × String) → Option String
  | [] => none
  | (q, v) :: rest => if q = p then some v else assoc p rest

/-- The mutable state of a Chat instance: the authenticated keypair, the
participant set (the keys of this.secrets, populated by addPub) and the
three memoization maps of the constructor. -/
structure ChatSt where
  gun : GunUsers
  key : KeyPair
  onMessage : Bool
  participants : List String
  secrets : List (String × String)
  ourSecretChatIds : List (String × String)
  theirSecretChatIds : List (String × String)

/-- A freshly constructed Chat instance: empty memoization maps. -/
def mkChat (gun : GunUsers) (key : KeyPair) (onMessage : Bool)
    (participants : List String) : ChatSt :=
  ⟨gun, key, onMessage, participants, [], [], []⟩

/-- Chat.prototype.getSecret: return the cached shared secret for pub, or
look up the remote epub and derive and cache it.  Returns the value and
the updated instance; none models suspension on a missing epub. -/
def ChatSt.getSecret (c : ChatSt) (pub : String) : Option (String × ChatSt) :=
  match assoc pub c.secrets with
  | some s => some (s, c)
  | none =>
    (c.gun.epubOf pub).map fun epub =>
      let s := seaSecret epub c.key
      (s, { c with secrets := (pub, s) :: c.secrets })

/-- Chat.prototype.getOurSecretChatId: memoized hash of the shared secret
concatenated with the remote public key. -/
def ChatSt.getOurSecretChatId (c : ChatSt) (pub : String) :
    Option (String × ChatSt) :=
  match assoc pub c.ourSecretChatIds with
  | some i => some (i, c)
  | none =>
    (c.getSecret pub).map fun si =>
      let i := seaWork (si.1 ++ pub)
      (i, { si.2 with ourSecretChatIds := (pub, i) :: si.2.ourSecretChatIds })

/-- Chat.prototype.getTheirSecretChatId: memoized hash of the shared
secret concatenated with the local public key. -/
def ChatSt.getTheirSecretChatId (c : ChatSt) (pub : String) :
    Option (String × ChatSt) :=
  match assoc pub c.theirSecretChatIds with
  | some i => some (i, c)
  | none =>
    (c.getSecret pub).map fun si =>
      let i := seaWork (si.1 ++ c.key.pub)
      (i, { si.2 with theirSecretChatIds := (pub, i) :: si.2.theirSecretChatIds })

/- Basic string facts used for hash injectivity. -/

theorem string_ext {s t : String} (h : s.data = t.data) : s = t := by
  cases s; cases t; cases h; rfl

theorem string_append_cancel_left {a b c : String} (h : a ++ b = a ++ c) :
    b = c := by
  apply string_ext
  have hd := congrArg String.data h
  rw [String.data_append, String.data_append] at hd
  exact List.append_cancel_left hd

theorem string_append_cancel_right {a b c : String} (h : a ++ c = b ++ c) :
    a = b := by
  apply string_ext
  have hd := congrArg String.data h
  rw [String.data_append, String.data_append] at hd
  exact List.append_cancel_right hd

theorem seaWork_inj {s t : String} (h : seaWork s = seaWork t) : s = t := by
  unfold seaWork at h
  have h1 : ("H(" : String) ++ (s ++ ")") = "H(" ++ (t ++ ")") := by
    rw [← String.append_assoc, ← String.append_assoc]; exact h
  exact string_append_cancel_right (string_append_cancel_left h1)

theorem char_eq_of_toNat_eq {c d : Char} (h : c.toNat = d.toNat) : c = d := by
  have h1 : Char.ofNat c.toNat = Char.ofNat d.toNat := congrArg Char.ofNat h
  rwa [Char.ofNat_toNat, Char.ofNat_toNat] at h1

theorem listLe_total : ∀ xs ys : List Char,
    listLe xs ys = true ∨ listLe ys xs = true
  | [], _ => Or.inl rfl
  | _ :: _, [] => Or.inr rfl
  | c :: cs, d :: ds => by
    unfold listLe
    by_cases h1 : c.toNat < d.toNat
    · exact Or.inl (by rw [if_pos h1])
    · by_cases h2 : d.toNat < c.toNat
      · exact Or.inr (by rw [if_pos h2])
      · rw [if_neg h1, if_neg h2, if_neg h2, if_neg h1]
        exact listLe_total cs ds

theorem listLe_antisymm : ∀ xs ys : List Char,
    listLe xs ys = true → listLe ys xs = true → xs = ys
  | [], [], _, _ => rfl
  | [], _ :: _, _, h2 => by cases h2
  | _ :: _, [], h1, _ => by cases h1
  | c :: cs, d :: ds, h1, h2 => by
    unfold listLe at h1 h2
    by_cases hcd : c.toNat < d.toNat
    · rw [if_neg (by omega), if_pos hcd] at h2
      cases h2
    · by_cases hdc : d.toNat < c.toNat
      · rw [if_neg hcd, if_pos hdc] at h1
        cases h1
      · rw [if_neg hcd, if_neg hdc] at h1
        rw [if_neg hdc, if_neg hcd] at h2
        have hc : c = d := char_eq_of_toNat_eq (by omega)
        rw [hc, listLe_antisymm cs ds h1 h2]

theorem dhSecret_comm (a b : String) : dhSecret a b = dhSecret b a := by
  unfold dhSecret
  by_cases hab : listLe a.data b.data = true
  · by_cases hba : listLe b.data a.data = true
    · have : a = b := string_ext (listLe_antisymm _ _ hab hba)
      subst this; rfl
    · rw [if_pos hab, if_neg (by simpa using hba)]
  · rcases listLe_total a.data b.data with h | h
    · exact absurd h hab
    · rw [if_neg (by simpa using hab), if_pos h]

/- Characterization and stability of the memoized instance derivations. -/

theorem assoc_cons_self (p v : String) (l : List (String × String)) :
    assoc p ((p, v) :: l) = some v := by
  simp [assoc]

theorem assoc_cons_of_ne {p q : String} (v : String) (l : List (String × String))
    (h : q ≠ p) : assoc p ((q, v) :: l) = assoc p l := by
  simp [assoc, h]

theorem getSecret_cases {c : ChatSt} {pub s : String} {c1 : ChatSt}
    (h : c.getSecret pub = some (s, c1)) :
    (assoc pub c.secrets = some s ∧ c1 = c) ∨
    (assoc pub c.secrets = none ∧ ∃ epub, c.gun.epubOf pub = some epub ∧
      s = seaSecret epub c.key ∧
      c1 = { c with secrets := (pub, s) :: c.secrets }) := by
  unfold ChatSt.getSecret at h
  cases hq : assoc pub c.secrets with
  | some v =>
    rw [hq] at h
    simp only [Option.some.injEq, Prod.mk.injEq] at h
    exact Or.inl ⟨congrArg some h.1, h.2.symm⟩
  | none =>
    rw [hq] at h
    cases he : c.gun.epubOf pub with
    | none => rw [he] at h; cases h
    | some epub =>
      rw [he] at h
      simp only [Option.map_some', Option.some.injEq, Prod.mk.injEq] at h
      refine Or.inr ⟨rfl, epub, rfl, h.1.symm, ?_⟩
      rw [← h.1]
      exact h.2.symm

theorem getSecret_cached {c : ChatSt} {pub s : String} {c1 : ChatSt}
    (h : c.getSecret pub = some (s, c1)) : assoc pub c1.secrets = some s := by
  rcases getSecret_cases h with ⟨ha, hc⟩ | ⟨_, epub, _, _, hc⟩
  · rw [hc]; exact ha
  · rw [hc]; exact assoc_cons_self _ _ _

theorem getSecret_of_cached {c : ChatSt} {pub s : String}
    (h : assoc pub c.secrets = some s) : c.getSecret pub = some (s, c) := by
  unfold ChatSt.getSecret
  rw [h]

theorem getSecret_stable {c : ChatSt} {pub s : String} {c1 : ChatSt}
    (h : c.getSecret pub = some (s, c1)) : c1.getSecret pub = some (s, c1) :=
  getSecret_of_cached (getSecret_cached h)

theorem getSecret_core {c : ChatSt} {pub s : String} {c1 : ChatSt}
    (h : c.getSecret pub = some (s, c1)) :
    c1.gun = c.gun ∧ c1.key = c.key ∧ c1.onMessage = c.onMessage ∧
    c1.participants = c.participants ∧
    c1.ourSecretChatIds = c.ourSecretChatIds ∧
    c1.theirSecretChatIds = c.theirSecretChatIds := by
  rcases getSecret_cases h with ⟨_, hc⟩ | ⟨_, epub, _, _, hc⟩ <;>
    (subst hc; exact ⟨rfl, rfl, rfl, rfl, rfl, rfl⟩)

theorem getSecret_mono {c : ChatSt} {pub s : String} {c1 : ChatSt}
    (h : c.getSecret pub = some (s, c1)) {q v : String}
    (hq : assoc q c.secrets = some v) : assoc q c1.secrets = some v := by
  rcases getSecret_cases h with ⟨_, hc⟩ | ⟨hnone, epub, _, _, hc⟩
  · rw [hc]; exact hq
  · rw [hc]
    have hne : q ≠ pub := by
      intro he; rw [he] at hq; rw [hq] at hnone; cases hnone
    rw [assoc_cons_of_ne _ _ (fun he => hne he.symm)]
    exact hq

theorem getOurSecretChatId_cases {c : ChatSt} {pub i : String} {c1 : ChatSt}
    (h : c.getOurSecretChatId pub = some (i, c1)) :
    (assoc pub c.ourSecretChatIds = some i ∧ c1 = c) ∨
    (assoc pub c.ourSecretChatIds = none ∧ ∃ s cm, c.getSecret pub = some (s, cm) ∧
      i = seaWork (s ++ pub) ∧
      c1 = { cm with ourSecretChatIds := (pub, i) :: cm.ourSecretChatIds }) := by
  unfold ChatSt.getOurSecretChatId at h
  cases hq : assoc pub c.ourSecretChatIds with
  | some v =>
    rw [hq] at h
    simp only [Option.some.injEq, Prod.mk.injEq] at h
    exact Or.inl ⟨congrArg some h.1, h.2.symm⟩
  | none =>
    rw [hq] at h
    cases hs : c.getSecret pub with
    | none => rw [hs] at h; cases h
    | some sv =>
      rw [hs] at h
      simp only [Option.map_some', Option.some.injEq, Prod.mk.injEq] at h
      refine Or.inr ⟨rfl, sv.1, sv.2, rfl, h.1.symm, ?_⟩
      rw [← h.1]
      exact h.2.symm

theorem getTheirSecretChatId_cases {c : ChatSt} {pub i : String} {c1 : ChatSt}
    (h : c.getTheirSecretChatId pub = some (i, c1)) :
    (assoc pub c.theirSecretChatIds = some i ∧ c1 = c) ∨
    (assoc pub c.theirSecretChatIds = none ∧ ∃ s cm, c.getSecret pub = some (s, cm) ∧
      i = seaWork (s ++ c.key.pub) ∧
      c1 = { cm with theirSecretChatIds := (pub, i) :: cm.theirSecretChatIds }) := by
  unfold ChatSt.getTheirSecretChatId at h
  cases hq : assoc pub c.theirSecretChatIds with
  | some v =>
    rw [hq] at h
    simp only [Option.some.injEq, Prod.mk.injEq] at h
    exact Or.inl ⟨congrArg some h.1, h.2.symm⟩
  | none =>
    rw [hq] at h
    cases hs : c.getSecret pub with
    | none => rw [hs] at h; cases h
    | some sv =>
      rw [hs] at h
      simp only [Option.map_some', Option.some.injEq, Prod.mk.injEq] at h
      refine Or.inr ⟨rfl, sv.1, sv.2, rfl, h.1.symm, ?_⟩
      rw [← h.1]
      exact h.2.symm

theorem getOurSecretChatId_cached {c : ChatSt} {pub i : String} {c1 : ChatSt}
    (h : c.getOurSecretChatId pub = some (i, c1)) :
    assoc pub c1.ourSecretChatIds = some i := by
  rcases getOurSecretChatId_cases h with ⟨ha, hc⟩ | ⟨_, s, cm, _, _, hc⟩
  · rw [hc]; exact ha
  · rw [hc]; exact assoc_cons_self _ _ _

theorem getOurSecretChatId_of_cached {c : ChatSt} {pub i : String}
    (h : assoc pub c.ourSecretChatIds = some i) :
    c.getOurSecretChatId pub = some (i, c) := by
  unfold ChatSt.getOurSecretChatId
  rw [h]

theorem getOurSecretChatId_stable {c : ChatSt} {pub i : String} {c1 : ChatSt}
    (h : c.getOurSecretChatId pub = some (i, c1)) :
    c1.getOurSecretChatId pub = some (i, c1) :=
  getOurSecretChatId_of_cached (getOurSecretChatId_cached h)

theorem getTheirSecretChatId_cached {c : ChatSt} {pub i : String} {c1 : ChatSt}
    (h : c.getTheirSecretChatId pub = some (i, c1)) :
    assoc pub c1.theirSecretChatIds = some i := by
  rcases getTheirSecretChatId_cases h with ⟨ha, hc⟩ | ⟨_, s, cm, _, _, hc⟩
  · rw [hc]; exact ha
  · rw [hc]; exact assoc_cons_self _ _ _

theorem getTheirSecretChatId_of_cached {c : ChatSt} {pub i : String}
    (h : assoc pub c.theirSecretChatIds = some i) :
    c.getTheirSecretChatId pub = some (i, c) := by
  unfold ChatSt.getTheirSecretChatId
  rw [h]

theorem getTheirSecretChatId_stable {c : ChatSt} {pub i : String} {c1 : ChatSt}
    (h : c.getTheirSecretChatId pub = some (i, c1)) :
    c1.getTheirSecretChatId pub = some (i, c1) :=
  getTheirSecretChatId_of_cached (getTheirSecretChatId_cached h)

/-- C1: for two identities A and B with distinct public keys and published
encryption keys, the channel id A derives for messages A writes to B
(getOurSecretChatId: hash of the shared secret concatenated with B.pub)
differs from the channel id B derives for messages B writes to A (hash of
the shared secret concatenated with A.pub), and repeated derivation of
either id on the same Chat instance returns the same value (and leaves the
instance unchanged) every time. -/
theorem channel_ids_directional_distinct_and_stable
    (g : GunUsers) (A B : KeyPair)
    (hA : g.epubOf A.pub = some A.epub)
    (hB : g.epubOf B.pub = some B.epub)
    (hne : A.pub ≠ B.pub) :
    (∃ idAB idBA,
      getOurSecretChatIdStatic g B.pub A = some idAB ∧
      getOurSecretChatIdStatic g A.pub B = some idBA ∧
      idAB ≠ idBA) ∧
    (∀ (c : ChatSt) (pub i : String) (c1 : ChatSt),
      c.getOurSecretChatId pub = some (i, c1) →
      c1.getOurSecretChatId pub = some (i, c1)) ∧
    (∀ (c : ChatSt) (pub i : String) (c1 : ChatSt),
      c.getTheirSecretChatId pub = some (i, c1) →
      c1.getTheirSecretChatId pub = some (i, c1)) := by
  refine ⟨?_, fun c pub i c1 h => getOurSecretChatId_stable h,
    fun c pub i c1 h => getTheirSecretChatId_stable h⟩
  refine ⟨seaWork (seaSecret B.epub A ++ B.pub),
    seaWork (seaSecret A.epub B ++ A.pub), ?_, ?_, ?_⟩
  · unfold getOurSecretChatIdStatic
    rw [hB]
    rfl
  · unfold getOurSecretChatIdStatic
    rw [hA]
    rfl
  · intro heq
    have hsec : seaSecret B.epub A = seaSecret A.epub B := by
      unfold seaSecret
      exact dhSecret_comm B.epub A.epub
    rw [hsec] at heq
    have := string_append_cancel_left (seaWork_inj heq)
    exact hne (this.symm)

/-- Witness for C1 at concrete identities: two keypairs with distinct
public keys, both epubs published in the store. -/
theorem channel_ids_directional_distinct_and_stable_witness :
    ((⟨fun p => if p = "pA" then some "eA" else
        if p = "pB" then some "eB" else none⟩ : GunUsers).epubOf "pA" =
          some "eA" ∧
      (⟨fun p => if p = "pA" then some "eA" else
        if p = "pB" then some "eB" else none⟩ : GunUsers).epubOf "pB" =
          some "eB" ∧
      ("pA" : String) ≠ "pB") ∧
    ((∃ idAB idBA,
      getOurSecretChatIdStatic
        ⟨fun p => if p = "pA" then some "eA" else
          if p = "pB" then some "eB" else none⟩ "pB" ⟨"pA", "eA"⟩ = some idAB ∧
      getOurSecretChatIdStatic
        ⟨fun p => if p = "pA" then some "eA" else
          if p = "pB" then some "eB" else none⟩ "pA" ⟨"pB", "eB"⟩ = some idBA ∧
      idAB ≠ idBA) ∧
    (∀ (c : ChatSt) (pub i : String) (c1 : ChatSt),
      c.getOurSecretChatId pub = some (i, c1) →
      c1.getOurSecretChatId pub = some (i, c1)) ∧
    (∀ (c : ChatSt) (pub i : String) (c1 : ChatSt),
      c.getTheirSecretChatId pub = some (i, c1) →
      c1.getTheirSecretChatId pub = some (i, c1))) :=
  ⟨⟨by decide, by decide, by decide⟩,
    channel_ids_directional_distinct_and_stable
      ⟨fun p => if p = "pA" then some "eA" else
        if p = "pB" then some "eB" else none⟩
      ⟨"pA", "eA"⟩ ⟨"pB", "eB"⟩ (by decide) (by decide) (by decide)⟩

/- Presence tracking: Chat.setOnline and Chat.getOnline. -/

/-- Math.round(ms / 1000) on a nonnegative clock value in milliseconds:
nearest second, halves rounding up, exactly as JS Math.round behaves on
nonnegative input. -/
def jsRound (ms : Nat) : Nat := (ms + 500) / 1000

/-- One callback payload delivered by getOnline. -/
structure PresenceOut where
  isOnline : Bool
  lastActive : Int
deriving DecidableEq

/-- The subscription-local state of one getOnline call: the pending
one-shot timeout, carrying the lastActive it captured and its delay in
milliseconds. -/
structure TimerSt where
  pending : Option (Int × Nat)
deriving DecidableEq

/-- Events seen by a getOnline subscription: a store update of lastActive
(together with the Gun.state() clock in ms at that moment), or the firing
of the pending timeout. -/
inductive PresenceEv where
  | update (lastActive : Int) (ms : Nat)
  | timerFire

/-- Chat.getOnline subscription callback as a step function: on an update,
clear the pending timeout, compute isOnline from the rounded clock, invoke
the callback, and re-arm a 10000 ms one-shot timeout only when online; on
a timeout firing, emit the synthetic offline callback. -/
def getOnlineStep (st : TimerSt) : PresenceEv → TimerSt × List PresenceOut
  | .update lastActive ms =>
    let now : Int := (jsRound ms : Nat)
    let isOnline : Bool := decide (lastActive > now - 10) &&
      decide (lastActive < now + 30)
    (⟨if isOnline then some (lastActive, 10000) else none⟩,
      [⟨isOnline, lastActive⟩])
  | .timerFire =>
    match st.pending with
    | some p => (⟨none⟩, [⟨false, p.1⟩])
    | none => (st, [])

/-- Chat.setOnline as a step function on the interval handle stored on the
gun instance.  The handle records the period of the armed repeating timer;
the returned list holds the store writes performed immediately. -/
def setOnlineStep (interval : Option Nat) (isOnline : Bool) (ms : Nat) :
    Option Nat × List (GunPath × GunVal) :=
  if isOnline then
    match interval with
    | some h => (some h, [])
    | none => (some 3000, [(["lastActive"], GunVal.num (jsRound ms))])
  else (none, [])

/-- C7: a presence update with value lastActive produces exactly one
callback carrying lastActive, whose isOnline is true exactly when
lastActive lies strictly inside (now - 10, now + 30) in the seconds clock
the code reads (now = Math.round(Gun.state() / 1000)); when online, a
one-shot 10000 ms timer carrying lastActive is armed, otherwise none is
pending; the result never depends on the previously pending timer (every
update cancels it); and a pending timer fires the synthetic offline
callback with the captured lastActive. -/
theorem getOnline_window_and_timer
    (st st2 : TimerSt) (la : Int) (ms : Nat) (d : Int × Nat) :
    ((getOnlineStep st (.update la ms)).2.map PresenceOut.isOnline = [true] ↔
      ((jsRound ms : Int) - 10 < la ∧ la < (jsRound ms : Int) + 30)) ∧
    ((getOnlineStep st (.update la ms)).2.map PresenceOut.lastActive = [la]) ∧
    ((getOnlineStep st (.update la ms)).1.pending =
      if ((jsRound ms : Int) - 10 < la ∧ la < (jsRound ms : Int) + 30) then
        some (la, 10000) else none) ∧
    (getOnlineStep st (.update la ms) = getOnlineStep st2 (.update la ms)) ∧
    (getOnlineStep ⟨some d⟩ .timerFire = (⟨none⟩, [⟨false, d.1⟩])) := by
  refine ⟨?_, ?_, ?_, rfl, rfl⟩
  · simp only [getOnlineStep, List.map_cons, List.map_nil,
      List.cons.injEq, and_true]
    constructor
    · intro h
      have hb : (decide (la > (jsRound ms : Int) - 10) &&
          decide (la < (jsRound ms : Int) + 30)) = true := h
      simp only [Bool.and_eq_true, decide_eq_true_eq] at hb
      exact ⟨hb.1, hb.2⟩
    · intro h
      have : (decide (la > (jsRound ms : Int) - 10) &&
          decide (la < (jsRound ms : Int) + 30)) = true := by
        simp only [Bool.and_eq_true, decide_eq_true_eq]
        exact ⟨h.1, h.2⟩
      exact this
  · simp [getOnlineStep]
  · simp only [getOnlineStep]
    by_cases h : ((jsRound ms : Int) - 10 < la ∧ la < (jsRound ms : Int) + 30)
    · rw [if_pos h]
      have : (decide (la > (jsRound ms : Int) - 10) &&
          decide (la < (jsRound ms : Int) + 30)) = true := by
        simp only [Bool.and_eq_true, decide_eq_true_eq]
        exact ⟨h.1, h.2⟩
      simp [this]
    · rw [if_neg h]
      have : (decide (la > (jsRound ms : Int) - 10) &&
          decide (la < (jsRound ms : Int) + 30)) = false := by
        rw [Bool.and_eq_false_iff]
        rcases not_and_or.mp h with h1 | h1
        · exact Or.inl (by simpa using h1)
        · exact Or.inr (by simpa using h1)
      simp [this]

/-- C8 counterexample: at store clock 1500 ms the code writes
Math.round(1.5) = 2, not floor(1.5) = 1, so the claim that the floor of
the current time in seconds is written fails. -/
theorem setOnline_writes_round_not_floor :
    (setOnlineStep none true 1500).2 ≠
      [(["lastActive"], GunVal.num (1500 / 1000))] := by
  decide

/-- C8 (amended): enabling presence with no active heartbeat immediately
writes Math.round(ms / 1000) (nearest second, halves up — not floor) to
the local lastActive slot and arms a 3000 ms repeating timer; enabling
while a heartbeat is active keeps the existing timer and performs no write
and arms no second timer. -/
theorem setOnline_immediate_write_and_idempotent (ms : Nat) (h : Nat) :
    setOnlineStep none true ms =
      (some 3000, [(["lastActive"], GunVal.num (jsRound ms))]) ∧
    setOnlineStep (some h) true ms = (some h, []) := by
  constructor <;> rfl

/- Store write-list lemmas. -/

theorem lastW_cons (q p : GunPath) (v : GunVal) (ws : List (GunPath × GunVal)) :
    lastW q ((p, v) :: ws) =
      match lastW q ws with
      | some v2 => some v2
      | none => if p = q then some v else none := rfl

theorem applyWrites_lookup (ws : List (GunPath × GunVal)) (s : Store)
    (q : GunPath) : applyWrites ws s q = (lastW q ws).getD (s q) := by
  induction ws generalizing s with
  | nil => rfl
  | cons w ws ih =>
    obtain ⟨p, v⟩ := w
    show applyWrites ws (putAt s p v) q = _
    rw [ih, lastW_cons]
    cases h : lastW q ws with
    | some v2 => rfl
    | none =>
      show putAt s p v q = _
      unfold putAt
      by_cases hpq : p = q
      · subst hpq
        rw [if_pos rfl, if_pos rfl]
        rfl
      · rw [if_neg (fun he => hpq he.symm), if_neg hpq]
        rfl

theorem applyWrites_applyWrites (ws : List (GunPath × GunVal)) (s : Store) :
    applyWrites ws (applyWrites ws s) = applyWrites ws s := by
  funext q
  rw [applyWrites_lookup, applyWrites_lookup]
  cases lastW q ws with
  | some v => rfl
  | none => rfl

theorem lastW_eq_none {q : GunPath} {ws : List (GunPath × GunVal)}
    (h : ∀ v, (q, v) ∉ ws) : lastW q ws = none := by
  induction ws with
  | nil => rfl
  | cons w ws ih =>
    obtain ⟨p, v⟩ := w
    rw [lastW_cons, ih (fun v2 hm => h v2 (List.mem_cons_of_mem _ hm))]
    refine if_neg (fun he => h v ?_)
    rw [← he]
    exact List.mem_cons_self _ _

theorem lastW_unique {q : GunPath} {v : GunVal} {ws : List (GunPath × GunVal)}
    (hmem : (q, v) ∈ ws) (huniq : ∀ v2, (q, v2) ∈ ws → v2 = v) :
    lastW q ws = some v := by
  induction ws with
  | nil => cases hmem
  | cons w ws ih =>
    obtain ⟨p, v0⟩ := w
    rw [lastW_cons]
    by_cases hmem2 : ∃ v2, (q, v2) ∈ ws
    · obtain ⟨v2, hm2⟩ := hmem2
      have hv2 : v2 = v := huniq v2 (List.mem_cons_of_mem _ hm2)
      subst hv2
      rw [ih hm2 (fun v3 hm3 => huniq v3 (List.mem_cons_of_mem _ hm3))]
    · have hnone : lastW q ws = none :=
        lastW_eq_none (fun v2 hm2 => hmem2 ⟨v2, hm2⟩)
      rw [hnone]
      rcases List.mem_cons.mp hmem with he | hm
      · simp only [Prod.mk.injEq] at he
        obtain ⟨hp, hv⟩ := he
        subst hp
        subst hv
        show (if q = q then some v else none) = some v
        rw [if_pos rfl]
      · exact absurd hm (fun _ => hmem2 ⟨v, hm⟩)

/- Preservation of cached entries across the memoized derivations. -/

/-- All cached entries of c survive into c1. -/
def CachePres (c c1 : ChatSt) : Prop :=
  (∀ q v, assoc q c.secrets = some v → assoc q c1.secrets = some v) ∧
  (∀ q v, assoc q c.ourSecretChatIds = some v →
    assoc q c1.ourSecretChatIds = some v) ∧
  (∀ q v, assoc q c.theirSecretChatIds = some v →
    assoc q c1.theirSecretChatIds = some v)

/-- The identity, configuration and participant set of c carry over to c1. -/
def CoreEq (c c1 : ChatSt) : Prop :=
  c1.gun = c.gun ∧ c1.key = c.key ∧ c1.onMessage = c.onMessage ∧
  c1.participants = c.participants

theorem cachePres_refl (c : ChatSt) : CachePres c c :=
  ⟨fun _ _ h => h, fun _ _ h => h, fun _ _ h => h⟩

theorem cachePres_trans {a b c : ChatSt} (h1 : CachePres a b)
    (h2 : CachePres b c) : CachePres a c :=
  ⟨fun q v h => h2.1 q v (h1.1 q v h),
   fun q v h => h2.2.1 q v (h1.2.1 q v h),
   fun q v h => h2.2.2 q v (h1.2.2 q v h)⟩

theorem coreEq_refl (c : ChatSt) : CoreEq c c := ⟨rfl, rfl, rfl, rfl⟩

theorem coreEq_trans {a b c : ChatSt} (h1 : CoreEq a b) (h2 : CoreEq b c) :
    CoreEq a c := by
  obtain ⟨x1, x2, x3, x4⟩ := h1
  obtain ⟨y1, y2, y3, y4⟩ := h2
  exact ⟨y1.trans x1, y2.trans x2, y3.trans x3, y4.trans x4⟩

theorem assoc_insert_pres {pub : String} {l : List (String × String)}
    (hnone : assoc pub l = none) {q v i : String}
    (hq : assoc q l = some v) : assoc q ((pub, i) :: l) = some v := by
  have hne : pub ≠ q := by
    intro he
    rw [he] at hnone
    rw [hnone] at hq
    cases hq
  rw [assoc_cons_of_ne _ _ hne]
  exact hq

theorem getSecret_cachePres {c : ChatSt} {pub s : String} {c1 : ChatSt}
    (h : c.getSecret pub = some (s, c1)) : CachePres c c1 := by
  rcases getSecret_cases h with ⟨_, hc⟩ | ⟨hnone, epub, _, _, hc⟩
  · subst hc; exact cachePres_refl _
  · subst hc
    exact ⟨fun q v hq => assoc_insert_pres hnone hq,
      fun q v hq => hq, fun q v hq => hq⟩

theorem getSecret_coreEq {c : ChatSt} {pub s : String} {c1 : ChatSt}
    (h : c.getSecret pub = some (s, c1)) : CoreEq c c1 := by
  obtain ⟨h1, h2, h3, h4, _, _⟩ := getSecret_core h
  exact ⟨h1, h2, h3, h4⟩

theorem getOurSecretChatId_cachePres {c : ChatSt} {pub i : String}
    {c1 : ChatSt} (h : c.getOurSecretChatId pub = some (i, c1)) :
    CachePres c c1 := by
  rcases getOurSecretChatId_cases h with ⟨_, hc⟩ | ⟨hnone, s, cm, hs, _, hc⟩
  · subst hc; exact cachePres_refl _
  · subst hc
    have hm := getSecret_cachePres hs
    have hcore := getSecret_core hs
    refine ⟨fun q v hq => hm.1 q v hq, fun q v hq => ?_, fun q v hq => hm.2.2 q v hq⟩
    have hq2 : assoc q cm.ourSecretChatIds = some v := hm.2.1 q v hq
    have hnone2 : assoc pub cm.ourSecretChatIds = none := by
      rw [hcore.2.2.2.2.1]
      exact hnone
    exact assoc_insert_pres hnone2 hq2

theorem getOurSecretChatId_coreEq {c : ChatSt} {pub i : String} {c1 : ChatSt}
    (h : c.getOurSecretChatId pub = some (i, c1)) : CoreEq c c1 := by
  rcases getOurSecretChatId_cases h with ⟨_, hc⟩ | ⟨_, s, cm, hs, _, hc⟩
  · subst hc; exact coreEq_refl _
  · subst hc
    obtain ⟨h1, h2, h3, h4⟩ := getSecret_coreEq hs
    exact ⟨h1, h2, h3, h4⟩

theorem getTheirSecretChatId_cachePres {c : ChatSt} {pub i : String}
    {c1 : ChatSt} (h : c.getTheirSecretChatId pub = some (i, c1)) :
    CachePres c c1 := by
  rcases getTheirSecretChatId_cases h with ⟨_, hc⟩ | ⟨hnone, s, cm, hs, _, hc⟩
  · subst hc; exact cachePres_refl _
  · subst hc
    have hm := getSecret_cachePres hs
    have hcore := getSecret_core hs
    refine ⟨fun q v hq => hm.1 q v hq, fun q v hq => hm.2.1 q v hq, fun q v hq => ?_⟩
    have hq2 : assoc q cm.theirSecretChatIds = some v := hm.2.2 q v hq
    have hnone2 : assoc pub cm.theirSecretChatIds = none := by
      rw [hcore.2.2.2.2.2]
      exact hnone
    exact assoc_insert_pres hnone2 hq2

theorem getTheirSecretChatId_coreEq {c : ChatSt} {pub i : String} {c1 : ChatSt}
    (h : c.getTheirSecretChatId pub = some (i, c1)) : CoreEq c c1 := by
  rcases getTheirSecretChatId_cases h with ⟨_, hc⟩ | ⟨_, s, cm, hs, _, hc⟩
  · subst hc; exact coreEq_refl _
  · subst hc
    obtain ⟨h1, h2, h3, h4⟩ := getSecret_coreEq hs
    exact ⟨h1, h2, h3, h4⟩

/- Chat.save and Chat.send. -/

/-- A structured chat message as the source documents it. -/
structure Msg where
  time : String
  author : String
  text : String
deriving DecidableEq

/-- Model of JSON.stringify on a structured message. -/
def jsonStringifyMsg (m : Msg) : String :=
  "JSONmsg(" ++ m.time ++ "," ++ m.author ++ "," ++ m.text ++ ")"

/-- The normalization at the top of Chat.prototype.send: a bare string
becomes a structured message stamped with the current time and the
anonymous author. -/
def normalizeMsg (nowIso : String) : String ⊕ Msg → Msg
  | .inl text => ⟨nowIso, "anonymous", text⟩
  | .inr m => m

/-- The loop body of Chat.prototype.save over the participant list: for
each participant derive our secret chat id and put null under
chats/(id)/msgs/a in the local user namespace. -/
def saveLoop : ChatSt → List String → Option (List (GunPath × GunVal) × ChatSt)
  | c, [] => some ([], c)
  | c, pub :: rest =>
    (c.getOurSecretChatId pub).bind fun ic =>
      (saveLoop ic.2 rest).map fun wsc =>
        ((["chats", ic.1, "msgs", "a"], GunVal.null) :: wsc.1, wsc.2)

/-- Chat.prototype.save: the write list it performs and the updated
instance; none models suspension on a participant with no published epub. -/
def ChatSt.save (c : ChatSt) : Option (List (GunPath × GunVal) × ChatSt) :=
  saveLoop c c.participants

/-- The loop body of Chat.prototype.send: for each participant encrypt the
serialized message under the shared secret and put it both under
chats/(id)/msgs/(m.time) and under chats/(id)/latestMsg. -/
def sendLoop : ChatSt → List String → Msg →
    Option (List (GunPath × GunVal) × ChatSt)
  | c, [], _ => some ([], c)
  | c, pub :: rest, m =>
    (c.getSecret pub).bind fun sc =>
      (sc.2.getOurSecretChatId pub).bind fun ic =>
        (sendLoop ic.2 rest m).map fun wsc =>
          ((["chats", ic.1, "msgs", m.time],
              GunVal.str (seaEncrypt (jsonStringifyMsg m) sc.1)) ::
           (["chats", ic.1, "latestMsg"],
              GunVal.str (seaEncrypt (jsonStringifyMsg m) sc.1)) :: wsc.1,
            wsc.2)

/-- Chat.prototype.send on a structured message. -/
def ChatSt.send (c : ChatSt) (m : Msg) :
    Option (List (GunPath × GunVal) × ChatSt) :=
  sendLoop c c.participants m

/-- The writes save performs, as a function of the derived chat ids. -/
def saveWritesOf (ids : List String) : List (GunPath × GunVal) :=
  ids.map fun i => (["chats", i, "msgs", "a"], GunVal.null)

/-- The writes send performs, as a function of the derived (chat id,
shared secret) pairs of the participants. -/
def sendWritesOf (prs : List (String × String)) (m : Msg) :
    List (GunPath × GunVal) :=
  match prs with
  | [] => []
  | (i, sec) :: rest =>
    (["chats", i, "msgs", m.time],
        GunVal.str (seaEncrypt (jsonStringifyMsg m) sec)) ::
    (["chats", i, "latestMsg"],
        GunVal.str (seaEncrypt (jsonStringifyMsg m) sec)) ::
    sendWritesOf rest m

theorem saveLoop_spec {l : List String} {c : ChatSt}
    {ws : List (GunPath × GunVal)} {c1 : ChatSt}
    (h : saveLoop c l = some (ws, c1)) :
    (∃ ids, ws = saveWritesOf ids ∧ ids.length = l.length) ∧
    saveLoop c1 l = some (ws, c1) ∧ CachePres c c1 ∧ CoreEq c c1 := by
  induction l generalizing c ws with
  | nil =>
    unfold saveLoop at h
    simp only [Option.some.injEq, Prod.mk.injEq] at h
    obtain ⟨hw, hc⟩ := h
    subst hw
    subst hc
    exact ⟨⟨[], rfl, rfl⟩, rfl, cachePres_refl _, coreEq_refl _⟩
  | cons pub rest ih =>
    unfold saveLoop at h
    cases hg : c.getOurSecretChatId pub with
    | none => rw [hg] at h; cases h
    | some ic =>
      rw [hg] at h
      simp only [Option.some_bind] at h
      cases hl : saveLoop ic.2 rest with
      | none => rw [hl] at h; cases h
      | some wsc =>
        rw [hl] at h
        simp only [Option.map_some', Option.some.injEq, Prod.mk.injEq] at h
        obtain ⟨hw, hc⟩ := h
        have hl2 : saveLoop ic.2 rest = some (wsc.1, c1) := by
          rw [hl, ← hc]
        have hg2 : c.getOurSecretChatId pub = some (ic.1, ic.2) := by
          rw [hg]
        obtain ⟨⟨ids, hids, hlen⟩, hstab, hpres, hcore⟩ := ih hl2
        have hcached : assoc pub ic.2.ourSecretChatIds = some ic.1 :=
          getOurSecretChatId_cached hg2
        have hcached1 : assoc pub c1.ourSecretChatIds = some ic.1 :=
          hpres.2.1 pub ic.1 hcached
        refine ⟨⟨ic.1 :: ids, by rw [← hw, hids]; rfl, by simp [hlen]⟩, ?_, ?_, ?_⟩
        · unfold saveLoop
          rw [getOurSecretChatId_of_cached hcached1]
          simp only [Option.some_bind]
          rw [hstab]
          simp only [Option.map_some', Option.some.injEq, Prod.mk.injEq]
          exact ⟨hw, trivial⟩
        · exact cachePres_trans (getOurSecretChatId_cachePres hg2) hpres
        · exact coreEq_trans (getOurSecretChatId_coreEq hg2) hcore

/-- C3: calling save() twice in succession leaves the store in the same
state as calling it once: the second call succeeds, writes exactly the
write list of the first call, replaying that write list changes nothing,
paths outside the write list are never touched, and the writes are the
null sentinel under chats/(id)/msgs/a, one per participant. -/
theorem save_twice_idempotent (c : ChatSt) (ws : List (GunPath × GunVal))
    (c1 : ChatSt) (h : c.save = some (ws, c1)) :
    c1.save = some (ws, c1) ∧
    (∀ s : Store, applyWrites ws (applyWrites ws s) = applyWrites ws s) ∧
    (∀ (s : Store) (q : GunPath), (∀ v, (q, v) ∉ ws) →
      applyWrites ws s q = s q) ∧
    (∃ ids, ws = saveWritesOf ids ∧ ids.length = c.participants.length) := by
  unfold ChatSt.save at h
  obtain ⟨hids, hstab, hpres, hcore⟩ := saveLoop_spec h
  refine ⟨?_, fun s => applyWrites_applyWrites ws s, ?_, hids⟩
  · unfold ChatSt.save
    rw [hcore.2.2.2]
    exact hstab
  · intro s q hq
    rw [applyWrites_lookup, lastW_eq_none hq]
    rfl

/-- A concrete gun graph for witnesses: one remote identity pB with
published encryption key eB. -/
def gunW : GunUsers := ⟨fun p => if p = "pB" then some "eB" else none⟩

/-- A concrete local keypair for witnesses. -/
def keyW : KeyPair := ⟨"pA", "eA"⟩

/-- The write list a save performs on the concrete witness chat. -/
def saveWsW : List (GunPath × GunVal) :=
  [(["chats", "H(DH(eA|eB)pB)", "msgs", "a"], GunVal.null)]

/-- The witness chat instance state after one derivation of the chat id of
pB. -/
def chatW : ChatSt :=
  ⟨gunW, keyW, true, ["pB"], [("pB", "DH(eA|eB)")],
    [("pB", "H(DH(eA|eB)pB)")], []⟩

/-- Witness for C3: on a concrete one-participant chat the save call
succeeds and the second save returns exactly the same writes and state. -/
theorem save_twice_idempotent_witness :
    (mkChat gunW keyW true ["pB"]).save = some (saveWsW, chatW) ∧
    chatW.save = some (saveWsW, chatW) :=
  ⟨rfl, (save_twice_idempotent (mkChat gunW keyW true ["pB"]) saveWsW chatW rfl).1⟩

theorem sendLoop_spec {l : List String} {c : ChatSt} {m : Msg}
    {ws : List (GunPath × GunVal)} {c1 : ChatSt}
    (h : sendLoop c l m = some (ws, c1)) :
    ∃ prs, ws = sendWritesOf prs m ∧ prs.length = l.length ∧
      (∀ m2, sendLoop c1 l m2 = some (sendWritesOf prs m2, c1)) ∧
      CachePres c c1 ∧ CoreEq c c1 := by
  induction l generalizing c ws with
  | nil =>
    unfold sendLoop at h
    simp only [Option.some.injEq, Prod.mk.injEq] at h
    obtain ⟨hw, hc⟩ := h
    subst hw
    subst hc
    exact ⟨[], rfl, rfl, fun m2 => rfl, cachePres_refl _, coreEq_refl _⟩
  | cons pub rest ih =>
    unfold sendLoop at h
    cases hs : c.getSecret pub with
    | none => rw [hs] at h; cases h
    | some sc =>
      rw [hs] at h
      simp only [Option.some_bind] at h
      cases hg : sc.2.getOurSecretChatId pub with
      | none => rw [hg] at h; cases h
      | some ic =>
        rw [hg] at h
        simp only [Option.some_bind] at h
        cases hl : sendLoop ic.2 rest m with
        | none => rw [hl] at h; cases h
        | some wsc =>
          rw [hl] at h
          simp only [Option.map_some', Option.some.injEq, Prod.mk.injEq] at h
          obtain ⟨hw, hc⟩ := h
          have hl2 : sendLoop ic.2 rest m = some (wsc.1, c1) := by
            rw [hl, ← hc]
          have hs2 : c.getSecret pub = some (sc.1, sc.2) := by rw [hs]
          have hg2 : sc.2.getOurSecretChatId pub = some (ic.1, ic.2) := by
            rw [hg]
          obtain ⟨prs, hprs, hlen, hstab, hpres, hcore⟩ := ih hl2
          have hsecc : assoc pub sc.2.secrets = some sc.1 :=
            getSecret_cached hs2
          have hsecic : assoc pub ic.2.secrets = some sc.1 :=
            (getOurSecretChatId_cachePres hg2).1 pub sc.1 hsecc
          have hsec1 : assoc pub c1.secrets = some sc.1 :=
            hpres.1 pub sc.1 hsecic
          have hidic : assoc pub ic.2.ourSecretChatIds = some ic.1 :=
            getOurSecretChatId_cached hg2
          have hid1 : assoc pub c1.ourSecretChatIds = some ic.1 :=
            hpres.2.1 pub ic.1 hidic
          refine ⟨(ic.1, sc.1) :: prs, ?_, by simp [hlen], ?_, ?_, ?_⟩
          · rw [← hw, hprs]
            rfl
          · intro m2
            unfold sendLoop
            rw [getSecret_of_cached hsec1]
            simp only [Option.some_bind]
            rw [getOurSecretChatId_of_cached hid1]
            simp only [Option.some_bind]
            rw [hstab m2]
            simp only [Option.map_some']
            rfl
          · exact cachePres_trans (getSecret_cachePres hs2)
              (cachePres_trans (getOurSecretChatId_cachePres hg2) hpres)
          · exact coreEq_trans (getSecret_coreEq hs2)
              (coreEq_trans (getOurSecretChatId_coreEq hg2) hcore)

theorem mem_sendWritesOf {q : GunPath} {v : GunVal}
    {prs : List (String × String)} {m : Msg} :
    (q, v) ∈ sendWritesOf prs m ↔
      ∃ pr, pr ∈ prs ∧
        (q = ["chats", pr.1, "msgs", m.time] ∨ q = ["chats", pr.1, "latestMsg"]) ∧
        v = GunVal.str (seaEncrypt (jsonStringifyMsg m) pr.2) := by
  induction prs with
  | nil =>
    simp [sendWritesOf]
  | cons pr rest ih =>
    obtain ⟨i, sec⟩ := pr
    unfold sendWritesOf
    constructor
    · intro hm
      rcases List.mem_cons.mp hm with he | hm2
      · simp only [Prod.mk.injEq] at he
        exact ⟨(i, sec), List.mem_cons_self _ _, Or.inl he.1, he.2⟩
      · rcases List.mem_cons.mp hm2 with he | hm3
        · simp only [Prod.mk.injEq] at he
          exact ⟨(i, sec), List.mem_cons_self _ _, Or.inr he.1, he.2⟩
        · obtain ⟨pr2, hpr2, hq, hv⟩ := ih.mp hm3
          exact ⟨pr2, List.mem_cons_of_mem _ hpr2, hq, hv⟩
    · rintro ⟨pr2, hpr2, hq, hv⟩
      rcases List.mem_cons.mp hpr2 with he | hm3
      · subst he
        rcases hq with hq | hq
        · subst hq
          subst hv
          exact List.mem_cons_self _ _
        · subst hq
          subst hv
          exact List.mem_cons_of_mem _ (List.mem_cons_self _ _)
      · refine List.mem_cons_of_mem _ (List.mem_cons_of_mem _ (ih.mpr ?_))
        exact ⟨pr2, hm3, hq, hv⟩

theorem nodup_key_unique {prs : List (String × String)}
    (h : (prs.map Prod.fst).Nodup) {i a b : String}
    (ha : (i, a) ∈ prs) (hb : (i, b) ∈ prs) : a = b := by
  induction prs with
  | nil => cases ha
  | cons pr rest ih =>
    obtain ⟨j, cv⟩ := pr
    rw [List.map_cons, List.nodup_cons] at h
    rcases List.mem_cons.mp ha with hea | hma
    · simp only [Prod.mk.injEq] at hea
      rcases List.mem_cons.mp hb with heb | hmb
      · simp only [Prod.mk.injEq] at heb
        rw [hea.2, heb.2]
      · exact absurd (List.mem_map.mpr ⟨(i, b), hmb, hea.1.symm ▸ rfl⟩) h.1
    · rcases List.mem_cons.mp hb with heb | hmb
      · simp only [Prod.mk.injEq] at heb
        exact absurd (List.mem_map.mpr ⟨(i, a), hma, heb.1.symm ▸ rfl⟩) h.1
      · exact ih h.2 hma hmb

/-- C4: sending m1 and then m2 with distinct time values writes both
timestamp-keyed slots chats/(id)/msgs/(time), neither send overwriting the
other (for each participant channel, under the collision-freeness of the
derived channel ids the m1 slot holds m1's encrypted payload and the m2
slot holds m2's), while chats/(id)/latestMsg is overwritten and ends up
holding the payload of the most recent send; the second send writes only
its own write list, and the only paths written by both sends are latestMsg
slots. -/
theorem send_distinct_times_no_overwrite (c : ChatSt) (m1 m2 : Msg)
    (ws1 ws2 : List (GunPath × GunVal)) (c1 c2 : ChatSt)
    (ht : m1.time ≠ m2.time)
    (h1 : c.send m1 = some (ws1, c1))
    (h2 : c1.send m2 = some (ws2, c2)) :
    ∃ prs, ws1 = sendWritesOf prs m1 ∧ ws2 = sendWritesOf prs m2 ∧
      prs.length = c.participants.length ∧
      ((prs.map Prod.fst).Nodup →
        ∀ (s0 : Store) (i sec : String), (i, sec) ∈ prs →
          applyWrites ws2 (applyWrites ws1 s0) (["chats", i, "msgs", m1.time]) =
            GunVal.str (seaEncrypt (jsonStringifyMsg m1) sec) ∧
          applyWrites ws2 (applyWrites ws1 s0) (["chats", i, "msgs", m2.time]) =
            GunVal.str (seaEncrypt (jsonStringifyMsg m2) sec) ∧
          applyWrites ws2 (applyWrites ws1 s0) (["chats", i, "latestMsg"]) =
            GunVal.str (seaEncrypt (jsonStringifyMsg m2) sec)) ∧
      (∀ (s0 : Store) (q : GunPath), (∀ v, (q, v) ∉ ws2) →
        applyWrites ws2 (applyWrites ws1 s0) q = applyWrites ws1 s0 q) ∧
      (∀ q v1 v2, (q, v1) ∈ ws1 → (q, v2) ∈ ws2 →
        ∃ i, q = ["chats", i, "latestMsg"]) := by
  unfold ChatSt.send at h1 h2
  obtain ⟨prs, hw1, hlen, hstab, hpres, hcore⟩ := sendLoop_spec h1
  rw [hcore.2.2.2] at h2
  have hst := (hstab m2).symm.trans h2
  simp only [Option.some.injEq, Prod.mk.injEq] at hst
  obtain ⟨hw2, hc12⟩ := hst
  refine ⟨prs, hw1, hw2.symm, by rw [hlen], ?_, ?_, ?_⟩
  · intro hnodup s0 i sec hmem
    refine ⟨?_, ?_, ?_⟩
    · have hq1ws2 : lastW (["chats", i, "msgs", m1.time]) ws2 = none := by
        refine lastW_eq_none (fun v hv => ?_)
        rw [← hw2] at hv
        obtain ⟨pr, hpr, hq, hveq⟩ := mem_sendWritesOf.mp hv
        rcases hq with hq | hq
        · simp at hq
          exact ht hq.2
        · simp at hq
      rw [applyWrites_lookup, hq1ws2]
      show applyWrites ws1 s0 _ = _
      have hmem1 : ((["chats", i, "msgs", m1.time] : GunPath),
          GunVal.str (seaEncrypt (jsonStringifyMsg m1) sec)) ∈ ws1 := by
        rw [hw1]
        exact mem_sendWritesOf.mpr ⟨(i, sec), hmem, Or.inl rfl, rfl⟩
      have huniq1 : ∀ v, ((["chats", i, "msgs", m1.time] : GunPath), v) ∈ ws1 →
          v = GunVal.str (seaEncrypt (jsonStringifyMsg m1) sec) := by
        intro v hv
        rw [hw1] at hv
        obtain ⟨pr, hpr, hq, hveq⟩ := mem_sendWritesOf.mp hv
        rcases hq with hq | hq
        · have hq1 : i = pr.1 := by simpa using hq
          have hpr2 : (i, pr.2) ∈ prs := by
            rw [hq1]
            exact hpr
          rw [hveq, nodup_key_unique hnodup hpr2 hmem]
        · simp at hq
      rw [applyWrites_lookup, lastW_unique hmem1 huniq1]
      rfl
    · have hmem2 : ((["chats", i, "msgs", m2.time] : GunPath),
          GunVal.str (seaEncrypt (jsonStringifyMsg m2) sec)) ∈ ws2 := by
        rw [← hw2]
        exact mem_sendWritesOf.mpr ⟨(i, sec), hmem, Or.inl rfl, rfl⟩
      have huniq2 : ∀ v, ((["chats", i, "msgs", m2.time] : GunPath), v) ∈ ws2 →
          v = GunVal.str (seaEncrypt (jsonStringifyMsg m2) sec) := by
        intro v hv
        rw [← hw2] at hv
        obtain ⟨pr, hpr, hq, hveq⟩ := mem_sendWritesOf.mp hv
        rcases hq with hq | hq
        · have hq1 : i = pr.1 := by simpa using hq
          have hpr2 : (i, pr.2) ∈ prs := by
            rw [hq1]
            exact hpr
          rw [hveq, nodup_key_unique hnodup hpr2 hmem]
        · simp at hq
      rw [applyWrites_lookup, lastW_unique hmem2 huniq2]
      rfl
    · have hmem3 : ((["chats", i, "latestMsg"] : GunPath),
          GunVal.str (seaEncrypt (jsonStringifyMsg m2) sec)) ∈ ws2 := by
        rw [← hw2]
        exact mem_sendWritesOf.mpr ⟨(i, sec), hmem, Or.inr rfl, rfl⟩
      have huniq3 : ∀ v, ((["chats", i, "latestMsg"] : GunPath), v) ∈ ws2 →
          v = GunVal.str (seaEncrypt (jsonStringifyMsg m2) sec) := by
        intro v hv
        rw [← hw2] at hv
        obtain ⟨pr, hpr, hq, hveq⟩ := mem_sendWritesOf.mp hv
        rcases hq with hq | hq
        · simp at hq
        · have hq1 : i = pr.1 := by simpa using hq
          have hpr2 : (i, pr.2) ∈ prs := by
            rw [hq1]
            exact hpr
          rw [hveq, nodup_key_unique hnodup hpr2 hmem]
      rw [applyWrites_lookup, lastW_unique hmem3 huniq3]
      rfl
  · intro s0 q hq
    rw [applyWrites_lookup, lastW_eq_none hq]
    rfl
  · intro q v1 v2 hv1 hv2
    rw [hw1] at hv1
    rw [← hw2] at hv2
    obtain ⟨pr1, hpr1, hq1, _⟩ := mem_sendWritesOf.mp hv1
    obtain ⟨pr2, hpr2, hq2, _⟩ := mem_sendWritesOf.mp hv2
    rcases hq1 with hq1 | hq1 <;> rcases hq2 with hq2 | hq2
    · rw [hq1] at hq2
      simp at hq2
      exact absurd hq2.2 ht
    · rw [hq1] at hq2
      simp at hq2
    · rw [hq1] at hq2
      simp at hq2
    · exact ⟨pr1.1, hq1⟩

/-- First witness message. -/
def msg1W : Msg := ⟨"t1", "a", "x"⟩

/-- Second witness message, distinct timestamp. -/
def msg2W : Msg := ⟨"t2", "a", "y"⟩

/-- The writes of sending msg1W on the witness chat. -/
def sendWs1W : List (GunPath × GunVal) :=
  [(["chats", "H(DH(eA|eB)pB)", "msgs", "t1"],
      GunVal.str "E(DH(eA|eB);JSONmsg(t1,a,x))"),
   (["chats", "H(DH(eA|eB)pB)", "latestMsg"],
      GunVal.str "E(DH(eA|eB);JSONmsg(t1,a,x))")]

/-- The writes of sending msg2W on the witness chat. -/
def sendWs2W : List (GunPath × GunVal) :=
  [(["chats", "H(DH(eA|eB)pB)", "msgs", "t2"],
      GunVal.str "E(DH(eA|eB);JSONmsg(t2,a,y))"),
   (["chats", "H(DH(eA|eB)pB)", "latestMsg"],
      GunVal.str "E(DH(eA|eB);JSONmsg(t2,a,y))")]

/-- Witness for C4: both concrete sends succeed on the one-participant
witness chat with distinct timestamps, and the path written by both sends
is a latestMsg slot. -/
theorem send_distinct_times_no_overwrite_witness :
    (msg1W.time ≠ msg2W.time) ∧
    ((mkChat gunW keyW true ["pB"]).send msg1W = some (sendWs1W, chatW)) ∧
    (chatW.send msg2W = some (sendWs2W, chatW)) ∧
    (∃ i, (["chats", "H(DH(eA|eB)pB)", "latestMsg"] : GunPath) =
      ["chats", i, "latestMsg"]) := by
  refine ⟨by decide, rfl, rfl, ?_⟩
  obtain ⟨prs, hw1, hw2, hlen, hval, hframe, hoverlap⟩ :=
    send_distinct_times_no_overwrite (mkChat gunW keyW true ["pB"]) msg1W msg2W
      sendWs1W sendWs2W chatW chatW (by decide) rfl rfl
  exact hoverlap (["chats", "H(DH(eA|eB)pB)", "latestMsg"])
    (GunVal.str "E(DH(eA|eB);JSONmsg(t1,a,x))")
    (GunVal.str "E(DH(eA|eB);JSONmsg(t2,a,y))") (by decide) (by decide)

/- Inbound message handling: Chat.messageReceived. -/

/-- A decrypted JS value, as far as the typeof check in messageReceived
distinguishes values. -/
inductive JSValue where
  | undefinedVal
  | null
  | bool (b : Bool)
  | num (n : Int)
  | str (s : String)
  | obj (payload : String)
deriving DecidableEq

/-- JS typeof on a decrypted value.  Note typeof null is the string
object, as in JS. -/
def jsTypeof : JSValue → String
  | .undefinedVal => "undefined"
  | .null => "object"
  | .bool _ => "boolean"
  | .num _ => "number"
  | .str _ => "string"
  | .obj _ => "object"

/-- Model of the JSON parse inside Gun.SEA.decrypt on a recovered
plaintext: object payloads are tagged obj:, the literal null parses to
null, anything else stays a string. -/
def jsParse (s : String) : JSValue :=
  if ("obj:").data.isPrefixOf s.data then .obj ⟨s.data.drop 4⟩
  else if s = "null" then .null
  else .str s

/-- Idealized Gun.SEA.decrypt returning a parsed JS value: decryption
succeeds only on a ciphertext produced under the same secret, and a
mismatched or garbage ciphertext yields undefined. -/
def seaDecryptV (cipher secret : String) : JSValue :=
  if ("E(" ++ secret ++ ";").data.isPrefixOf cipher.data ∧
      cipher.data.getLast? = some (Char.ofNat 41) then
    jsParse ⟨(cipher.data.drop ("E(" ++ secret ++ ";").data.length).dropLast⟩
  else .undefinedVal

/-- Idealized Gun.SEA.decrypt of a string plaintext: some plaintext on a
matching ciphertext, none (undefined) otherwise. -/
def seaDecryptStr (cipher secret : String) : Option String :=
  if ("E(" ++ secret ++ ";").data.isPrefixOf cipher.data ∧
      cipher.data.getLast? = some (Char.ofNat 41) then
    some ⟨(cipher.data.drop ("E(" ++ secret ++ ";").data.length).dropLast⟩
  else none

theorem seaDecryptStr_seaEncrypt (m sec : String) :
    seaDecryptStr (seaEncrypt m sec) sec = some m := by
  have hdata : (seaEncrypt m sec).data =
      ("E(" ++ sec ++ ";").data ++ (m.data ++ [Char.ofNat 41]) := by
    show ("E(" ++ sec ++ ";" ++ m ++ ")").data = _
    simp only [String.data_append, List.append_assoc]
  have hpfx : ("E(" ++ sec ++ ";").data.isPrefixOf (seaEncrypt m sec).data = true := by
    rw [hdata, List.isPrefixOf_iff_prefix]
    exact List.prefix_append _ _
  have hlast : (seaEncrypt m sec).data.getLast? = some (Char.ofNat 41) := by
    rw [hdata, ← List.append_assoc]
    exact List.getLast?_concat _
  unfold seaDecryptStr
  rw [if_pos ⟨hpfx, hlast⟩, hdata, List.drop_left, List.dropLast_concat]

/-- Chat.prototype.messageReceived: when an onMessage callback is set,
decrypt the update with the participant secret; if the decrypted value is
not typeof object, return without invoking the callback; otherwise invoke
the callback with (decrypted, selfAuthored).  The result pairs the updated
instance with the callback invocation (none = callback not invoked);
the outer none models suspension inside getSecret. -/
def ChatSt.messageReceived (c : ChatSt) (data pub : String)
    (selfAuthored : Bool) : Option (ChatSt × Option (JSValue × Bool)) :=
  if c.onMessage = true then
    (c.getSecret pub).map fun sc =>
      let decrypted := seaDecryptV data sc.1
      if jsTypeof decrypted ≠ "object" then (sc.2, none)
      else (sc.2, some (decrypted, selfAuthored))
  else some (c, none)

/-- C6: on a chat with a message callback, for every inbound update whose
decryption is not typeof object (failed decrypts, strings, garbage) the
handler returns without invoking the callback and without raising an
error, and for every update whose decryption is typeof object the callback
is invoked with the decrypted message and the selfAuthored flag. -/
theorem messageReceived_drops_non_objects (c : ChatSt) (data pub : String)
    (selfAuthored : Bool) (sec : String) (c1 : ChatSt)
    (hcb : c.onMessage = true)
    (hs : c.getSecret pub = some (sec, c1)) :
    (jsTypeof (seaDecryptV data sec) ≠ "object" →
      c.messageReceived data pub selfAuthored = some (c1, none)) ∧
    (jsTypeof (seaDecryptV data sec) = "object" →
      c.messageReceived data pub selfAuthored =
        some (c1, some (seaDecryptV data sec, selfAuthored))) := by
  unfold ChatSt.messageReceived
  rw [if_pos hcb, hs]
  simp only [Option.map_some']
  constructor
  · intro hd
    rw [if_pos hd]
  · intro hd
    rw [if_neg (fun hne => hne hd)]

/-- Witness for C6 on the concrete witness chat: garbage data is dropped
without a callback, and a validly encrypted object payload is delivered. -/
theorem messageReceived_drops_non_objects_witness :
    (chatW.onMessage = true) ∧
    (chatW.getSecret "pB" = some ("DH(eA|eB)", chatW)) ∧
    (chatW.messageReceived "garbage" "pB" false = some (chatW, none)) ∧
    (chatW.messageReceived (seaEncrypt "obj:m" "DH(eA|eB)") "pB" true =
      some (chatW, some (JSValue.obj "m", true))) := by
  refine ⟨rfl, rfl, ?_, ?_⟩
  · exact (messageReceived_drops_non_objects chatW "garbage" "pB" false
      "DH(eA|eB)" chatW rfl rfl).1 (by decide)
  · have h := (messageReceived_drops_non_objects chatW
      (seaEncrypt "obj:m" "DH(eA|eB)") "pB" true
      "DH(eA|eB)" chatW rfl rfl).2 (by decide)
    rw [h]
    rfl

/- The owner-side chat request subscription inside Chat.getMyChatLinks. -/

/-- Model of JSON.stringify on the raw encrypted request value. -/
def jsonStringifyStr (s : String) : String := "JSONstr(" ++ s ++ ")"

/-- State of one chatRequests subscription: the in-memory list of already
processed stringified payloads (the chats array), the log of Chats
instantiated and saved (stringified payload paired with the decrypted
joiner public key), and the log of request ids removed after reading. -/
structure ChatReqSt where
  chats : List String
  created : List (String × Option String)
  removed : List String
deriving DecidableEq

/-- One firing of the chatRequests map subscription with value encPub
(none = falsy, ignored) under requestId: if the stringified payload was
not seen yet, record it, decrypt the joiner public key and instantiate and
save a new Chat; afterwards always put null over the consumed request. -/
def chatRequestStep (sharedSecret : String) (st : ChatReqSt)
    (ev : Option String × String) : ChatReqSt :=
  match ev with
  | (none, _) => st
  | (some encPub, requestId) =>
    if jsonStringifyStr encPub ∈ st.chats then
      { st with removed := st.removed ++ [requestId] }
    else
      ⟨st.chats ++ [jsonStringifyStr encPub],
        st.created ++ [(jsonStringifyStr encPub, seaDecryptStr encPub sharedSecret)],
        st.removed ++ [requestId]⟩

/-- A whole replay of chatRequests events against a fresh subscription. -/
def runChatRequests (sharedSecret : String)
    (evs : List (Option String × String)) : ChatReqSt :=
  evs.foldl (chatRequestStep sharedSecret) ⟨[], [], []⟩

/-- The dedup invariant of the chats array. -/
def ReqInv (st : ChatReqSt) : Prop :=
  (st.created.map Prod.fst).Nodup ∧
  ∀ s, s ∈ st.created.map Prod.fst → s ∈ st.chats

theorem chatRequestStep_inv (sharedSecret : String) (st : ChatReqSt)
    (ev : Option String × String) (h : ReqInv st) :
    ReqInv (chatRequestStep sharedSecret st ev) := by
  obtain ⟨hnd, hsub⟩ := h
  obtain ⟨e1, requestId⟩ := ev
  cases e1 with
  | none => exact ⟨hnd, hsub⟩
  | some encPub =>
    show ReqInv (if jsonStringifyStr encPub ∈ st.chats then _ else _)
    by_cases hc : jsonStringifyStr encPub ∈ st.chats
    · rw [if_pos hc]
      exact ⟨hnd, hsub⟩
    · rw [if_neg hc]
      constructor
      · simp only [List.map_append, List.map_cons, List.map_nil]
        rw [List.nodup_append]
        refine ⟨hnd, List.nodup_singleton _, ?_⟩
        intro s hs1 hs2
        simp only [List.mem_singleton] at hs2
        subst hs2
        exact hc (hsub _ hs1)
      · intro s hs
        simp only [List.map_append, List.map_cons, List.map_nil,
          List.mem_append, List.mem_singleton] at hs
        rcases hs with hs | hs
        · exact List.mem_append_left _ (hsub s hs)
        · subst hs
          exact List.mem_append_right _ (List.mem_singleton.mpr rfl)

theorem runChatRequests_inv_aux (sharedSecret : String)
    (evs : List (Option String × String)) (st : ChatReqSt) (h : ReqInv st) :
    ReqInv (evs.foldl (chatRequestStep sharedSecret) st) := by
  induction evs generalizing st with
  | nil => exact h
  | cons ev evs ih =>
    exact ih _ (chatRequestStep_inv sharedSecret st ev h)

/-- C2: across any sequence of chatRequests subscription firings, at most
one new Chat is instantiated and saved per distinct encrypted request
payload; in particular, when the store replays a joiner J's request write
three times, exactly one Chat carrying J's decrypted public key is
created. -/
theorem chat_request_replay_creates_once (sharedSecret : String)
    (evs : List (Option String × String)) (encPub : String)
    (J r1 r2 r3 : String) :
    ((runChatRequests sharedSecret evs).created.map Prod.fst).count
      (jsonStringifyStr encPub) ≤ 1 ∧
    (runChatRequests sharedSecret
      [(some (seaEncrypt J sharedSecret), r1),
       (some (seaEncrypt J sharedSecret), r2),
       (some (seaEncrypt J sharedSecret), r3)]).created =
      [(jsonStringifyStr (seaEncrypt J sharedSecret), some J)] := by
  constructor
  · have hinv := runChatRequests_inv_aux sharedSecret evs ⟨[], [], []⟩
      ⟨List.nodup_nil, fun s hs => absurd hs (List.not_mem_nil s)⟩
    exact List.nodup_iff_count_le_one.mp hinv.1 _
  · simp only [runChatRequests, List.foldl]
    simp [chatRequestStep, seaDecryptStr_seaEncrypt]

/- The outer and inner subscriptions of Chat.getMyChatLinks. -/

/-- State of one run of getMyChatLinks: the in-memory chatLinks array of
processed link ids, and logs of the links-callback invocations, of the
chatRequests subscriptions registered on the links ephemeral keypairs, and
of the ownerEncryptedSharedKey subscriptions registered by the outer
callback. -/
structure ChatLinksSt where
  chatLinks : List String
  callbackLog : List String
  requestSubs : List String
  innerSubs : List String
deriving DecidableEq

/-- Events seen by one run of getMyChatLinks: a firing of the outer
chatLinks map subscription for linkId (dataPresent false models a falsy
record), or a firing of the inner ownerEncryptedSharedKey subscription for
linkId (encPresent false models a falsy value). -/
inductive ChatLinksEv where
  | outer (linkId : String) (dataPresent : Bool)
  | inner (linkId : String) (encPresent : Bool)

/-- One subscription firing inside getMyChatLinks: the outer callback
returns early on falsy data or an already processed linkId, otherwise
registers the inner subscription; the inner callback returns early on a
falsy value or an already processed linkId, otherwise pushes linkId onto
chatLinks, invokes the links callback and, when subscribe is set,
registers the chatRequests subscription. -/
def getMyChatLinksStep (subscribe : Bool) (st : ChatLinksSt) :
    ChatLinksEv → ChatLinksSt
  | .outer linkId dataPresent =>
    if dataPresent = true ∧ linkId ∉ st.chatLinks then
      { st with innerSubs := st.innerSubs ++ [linkId] }
    else st
  | .inner linkId encPresent =>
    if encPresent = true ∧ linkId ∉ st.chatLinks then
      ⟨st.chatLinks ++ [linkId], st.callbackLog ++ [linkId],
        (if subscribe then st.requestSubs ++ [linkId] else st.requestSubs),
        st.innerSubs⟩
    else st

/-- A whole run of getMyChatLinks over an event trace. -/
def runGetMyChatLinks (subscribe : Bool) (evs : List ChatLinksEv) :
    ChatLinksSt :=
  evs.foldl (getMyChatLinksStep subscribe) ⟨[], [], [], []⟩

/-- The dedup invariant of the chatLinks array. -/
def LinksInv (st : ChatLinksSt) : Prop :=
  st.callbackLog.Nodup ∧ st.requestSubs.Nodup ∧
  (∀ l, l ∈ st.callbackLog → l ∈ st.chatLinks) ∧
  (∀ l, l ∈ st.requestSubs → l ∈ st.chatLinks)

theorem getMyChatLinksStep_inv (subscribe : Bool) (st : ChatLinksSt)
    (ev : ChatLinksEv) (h : LinksInv st) :
    LinksInv (getMyChatLinksStep subscribe st ev) := by
  obtain ⟨hnd1, hnd2, hsub1, hsub2⟩ := h
  cases ev with
  | outer linkId dataPresent =>
    simp only [getMyChatLinksStep]
    by_cases hc : dataPresent = true ∧ linkId ∉ st.chatLinks
    · rw [if_pos hc]
      exact ⟨hnd1, hnd2, hsub1, hsub2⟩
    · rw [if_neg hc]
      exact ⟨hnd1, hnd2, hsub1, hsub2⟩
  | inner linkId encPresent =>
    simp only [getMyChatLinksStep]
    by_cases hc : encPresent = true ∧ linkId ∉ st.chatLinks
    · rw [if_pos hc]
      refine ⟨?_, ?_, ?_, ?_⟩
      · rw [List.nodup_append]
        refine ⟨hnd1, List.nodup_singleton _, ?_⟩
        intro l hl1 hl2
        simp only [List.mem_singleton] at hl2
        subst hl2
        exact hc.2 (hsub1 l hl1)
      · by_cases hsubm : subscribe = true
        · rw [if_pos hsubm, List.nodup_append]
          refine ⟨hnd2, List.nodup_singleton _, ?_⟩
          intro l hl1 hl2
          simp only [List.mem_singleton] at hl2
          subst hl2
          exact hc.2 (hsub2 l hl1)
        · rw [if_neg hsubm]
          exact hnd2
      · intro l hl
        rcases List.mem_append.mp hl with hl | hl
        · exact List.mem_append_left _ (hsub1 l hl)
        · exact List.mem_append_right _ hl
      · intro l hl
        by_cases hsubm : subscribe = true
        · rw [if_pos hsubm] at hl
          rcases List.mem_append.mp hl with hl | hl
          · exact List.mem_append_left _ (hsub2 l hl)
          · exact List.mem_append_right _ hl
        · rw [if_neg hsubm] at hl
          exact List.mem_append_left _ (hsub2 l hl)
    · rw [if_neg hc]
      exact ⟨hnd1, hnd2, hsub1, hsub2⟩

theorem runGetMyChatLinks_inv_aux (subscribe : Bool) (evs : List ChatLinksEv)
    (st : ChatLinksSt) (h : LinksInv st) :
    LinksInv (evs.foldl (getMyChatLinksStep subscribe) st) := by
  induction evs generalizing st with
  | nil => exact h
  | cons ev evs ih =>
    exact ih _ (getMyChatLinksStep_inv subscribe st ev h)

/-- C10: during one run of getMyChatLinks, for every linkId the links
callback is invoked at most once and at most one chatRequests subscription
is registered for that link, whatever sequence of outer and inner
subscription firings (including replays) the store delivers. -/
theorem getMyChatLinks_once_per_link (subscribe : Bool)
    (evs : List ChatLinksEv) (linkId : String) :
    (runGetMyChatLinks subscribe evs).callbackLog.count linkId ≤ 1 ∧
    (runGetMyChatLinks subscribe evs).requestSubs.count linkId ≤ 1 := by
  have hinv := runGetMyChatLinks_inv_aux subscribe evs ⟨[], [], [], []⟩
    ⟨List.nodup_nil, List.nodup_nil,
      fun l hl => absurd hl (List.not_mem_nil l),
      fun l hl => absurd hl (List.not_mem_nil l)⟩
  exact ⟨List.nodup_iff_count_le_one.mp hinv.1 _,
    List.nodup_iff_count_le_one.mp hinv.2.1 _⟩

/- Invite link URL formatting: encodeURIComponent / percent-decoding. -/

/-- The characters encodeURIComponent leaves unescaped: ASCII letters,
digits, and - _ . ! ~ * quote ( ). -/
def isUnreservedChar (c : Char) : Bool :=
  c.isAlpha || c.isDigit || c = '-' || c = '_' || c = '.' || c = '!' ||
    c = '~' || c = '*' || c = Char.ofNat 39 || c = '(' || c = ')'

/-- Uppercase hex digit of a value below 16, as encodeURIComponent emits. -/
def hexDigitChar (n : Nat) : Char :=
  if n < 10 then Char.ofNat (48 + n) else Char.ofNat (55 + n)

/-- The three-character percent escape of one byte. -/
def pctEncodeByte (b : Nat) : List Char := ['%', hexDigitChar (b / 16), hexDigitChar (b % 16)]

/-- UTF-8 bytes of a Unicode code point. -/
def utf8BytesOfCodepoint (n : Nat) : List Nat :=
  if n < 128 then [n]
  else if n < 2048 then [192 + n / 64, 128 + n % 64]
  else if n < 65536 then [224 + n / 4096, 128 + n / 64 % 64, 128 + n % 64]
  else [240 + n / 262144, 128 + n / 4096 % 64, 128 + n / 64 % 64, 128 + n % 64]

/-- encodeURIComponent on one character: unreserved characters pass
through, everything else becomes the percent escapes of its UTF-8 bytes. -/
def encodeChar (c : Char) : List Char :=
  if isUnreservedChar c then [c]
  else ((utf8BytesOfCodepoint c.toNat).map pctEncodeByte).flatten

/-- Model of the JS builtin encodeURIComponent. -/
def encodeURIComponent (s : String) : String :=
  ⟨(s.data.map encodeChar).flatten⟩

/-- The numeric value of a hex digit, accepting both cases as JS
decodeURIComponent does. -/
def hexVal (c : Char) : Option Nat :=
  if 48 ≤ c.toNat ∧ c.toNat ≤ 57 then some (c.toNat - 48)
  else if 65 ≤ c.toNat ∧ c.toNat ≤ 70 then some (c.toNat - 55)
  else if 97 ≤ c.toNat ∧ c.toNat ≤ 102 then some (c.toNat - 87)
  else none

/-- A percent-decoding token: a raw character or one escaped byte. -/
inductive PctTok where
  | raw (c : Char)
  | byte (b : Nat)
deriving DecidableEq

/-- First percent-decoding pass: turn each percent escape into a byte
token, pass other characters through, fail on a malformed escape. -/
def pctToks : List Char → Option (List PctTok)
  | [] => some []
  | c :: rest =>
    if c = '%' then
      match rest with
      | h1 :: h2 :: rest2 =>
        match hexVal h1, hexVal h2 with
        | some a, some b => (pctToks rest2).map (PctTok.byte (16 * a + b) :: ·)
        | _, _ => none
      | _ => none
    else (pctToks rest).map (PctTok.raw c :: ·)

/-- The value of a UTF-8 continuation byte. -/
def contVal (b : Nat) : Option Nat :=
  if 128 ≤ b ∧ b < 192 then some (b - 128) else none

/-- Second percent-decoding pass, one token at a time: the first argument
holds the partially decoded multi-byte sequence (accumulated value and
number of continuation bytes still expected).  Raw characters pass
through; byte runs are decoded as UTF-8; a malformed sequence fails. -/
def utf8Run : Option (Nat × Nat) → List PctTok → Option (List Char)
  | none, [] => some []
  | some _, [] => none
  | none, .raw c :: rest => (utf8Run none rest).map (c :: ·)
  | some _, .raw _ :: _ => none
  | none, .byte b :: rest =>
    if b < 128 then (utf8Run none rest).map (Char.ofNat b :: ·)
    else if b < 192 then none
    else if b < 224 then utf8Run (some (b - 192, 1)) rest
    else if b < 240 then utf8Run (some (b - 224, 2)) rest
    else if b < 248 then utf8Run (some (b - 240, 3)) rest
    else none
  | some (acc, k), .byte b :: rest =>
    match contVal b with
    | some v =>
      if k = 1 then (utf8Run none rest).map (Char.ofNat (acc * 64 + v) :: ·)
      else utf8Run (some (acc * 64 + v, k - 1)) rest
    | none => none

/-- Decode a full token list as UTF-8 text. -/
def utf8Detoks (ts : List PctTok) : Option (List Char) := utf8Run none ts

/-- Model of the JS builtin decodeURIComponent on a character list. -/
def pctDecode (l : List Char) : Option (List Char) :=
  (pctToks l).bind utf8Detoks

/-- Model of the JS builtin decodeURIComponent. -/
def decodeURIComponentModel (s : String) : Option String :=
  (pctDecode s.data).map fun l => ⟨l⟩

/-- Chat.formatChatLink: the invite link wire format. -/
def formatChatLink (urlRoot pub sharedSecret linkId : String) : String :=
  urlRoot ++ "?chatWith=" ++ encodeURIComponent pub ++ "&s=" ++
    encodeURIComponent sharedSecret ++ "&k=" ++ encodeURIComponent linkId

/-- Split a character list on a separator character, as JS split does. -/
def splitOnChar (c : Char) : List Char → List (List Char)
  | [] => [[]]
  | x :: xs =>
    if x = c then [] :: splitOnChar c xs
    else
      match splitOnChar c xs with
      | [] => [[x]]
      | p :: ps => (x :: p) :: ps

theorem hexVal_hexDigitChar : ∀ n : Nat, n < 16 →
    hexVal (hexDigitChar n) = some n := by decide

theorem char_toNat_lt (c : Char) : c.toNat < 1114112 := by
  have hd : c.toNat = c.val.toNat := rfl
  rcases c.valid with h | ⟨h1, h2⟩
  · omega
  · omega

theorem pctToks_cons (c : Char) (rest : List Char) :
    pctToks (c :: rest) =
      if c = '%' then
        match rest with
        | h1 :: h2 :: rest2 =>
          match hexVal h1, hexVal h2 with
          | some a, some b => (pctToks rest2).map (PctTok.byte (16 * a + b) :: ·)
          | _, _ => none
        | _ => none
      else (pctToks rest).map (PctTok.raw c :: ·) := by
  rw [pctToks.eq_def]

theorem pctToks_raw {c : Char} (hc : ¬ c = '%') (rest : List Char) :
    pctToks (c :: rest) = (pctToks rest).map (PctTok.raw c :: ·) := by
  rw [pctToks_cons, if_neg hc]

theorem pctToks_pct (h1 h2 : Char) (rest : List Char) :
    pctToks ('%' :: h1 :: h2 :: rest) =
      match hexVal h1, hexVal h2 with
      | some a, some b => (pctToks rest).map (PctTok.byte (16 * a + b) :: ·)
      | _, _ => none := by
  rw [pctToks_cons, if_pos rfl]

theorem pctToks_encByte {b : Nat} (hb : b < 256) (t : List Char) :
    pctToks (pctEncodeByte b ++ t) = (pctToks t).map (PctTok.byte b :: ·) := by
  show pctToks ('%' :: hexDigitChar (b / 16) :: hexDigitChar (b % 16) :: t) = _
  rw [pctToks_pct, hexVal_hexDigitChar (b / 16) (by omega),
    hexVal_hexDigitChar (b % 16) (by omega)]
  show (pctToks t).map (PctTok.byte (16 * (b / 16) + b % 16) :: ·) = _
  have hbb : 16 * (b / 16) + b % 16 = b := by omega
  rw [hbb]

theorem utf8Run_none_raw (c : Char) (rest : List PctTok) :
    utf8Run none (.raw c :: rest) = (utf8Run none rest).map (c :: ·) := rfl

theorem utf8Run_none_byte (b : Nat) (rest : List PctTok) :
    utf8Run none (.byte b :: rest) =
      if b < 128 then (utf8Run none rest).map (Char.ofNat b :: ·)
      else if b < 192 then none
      else if b < 224 then utf8Run (some (b - 192, 1)) rest
      else if b < 240 then utf8Run (some (b - 224, 2)) rest
      else if b < 248 then utf8Run (some (b - 240, 3)) rest
      else none := rfl

theorem utf8Run_some_byte (acc k b : Nat) (rest : List PctTok) :
    utf8Run (some (acc, k)) (.byte b :: rest) =
      match contVal b with
      | some v =>
        if k = 1 then (utf8Run none rest).map (Char.ofNat (acc * 64 + v) :: ·)
        else utf8Run (some (acc * 64 + v, k - 1)) rest
      | none => none := rfl

theorem contVal_of_range {b : Nat} (h1 : 128 ≤ b) (h2 : b < 192) :
    contVal b = some (b - 128) := by
  unfold contVal
  rw [if_pos ⟨h1, h2⟩]

theorem utf8Detoks_b1 {b : Nat} (hb : b < 128) (rest : List PctTok) :
    utf8Detoks (.byte b :: rest) = (utf8Detoks rest).map (Char.ofNat b :: ·) := by
  unfold utf8Detoks
  rw [utf8Run_none_byte, if_pos hb]

theorem utf8Detoks_b2 {b b2 : Nat} (hb1 : 192 ≤ b) (hb2 : b < 224)
    (hc1 : 128 ≤ b2) (hc2 : b2 < 192) (rest : List PctTok) :
    utf8Detoks (.byte b :: .byte b2 :: rest) =
      (utf8Detoks rest).map (Char.ofNat ((b - 192) * 64 + (b2 - 128)) :: ·) := by
  unfold utf8Detoks
  rw [utf8Run_none_byte, if_neg (by omega), if_neg (by omega), if_pos hb2,
    utf8Run_some_byte, contVal_of_range hc1 hc2]
  rfl

theorem utf8Detoks_b3 {b b2 b3 : Nat} (hb1 : 224 ≤ b) (hb2 : b < 240)
    (hc1 : 128 ≤ b2) (hc2 : b2 < 192) (hd1 : 128 ≤ b3) (hd2 : b3 < 192)
    (rest : List PctTok) :
    utf8Detoks (.byte b :: .byte b2 :: .byte b3 :: rest) =
      (utf8Detoks rest).map
        (Char.ofNat (((b - 224) * 64 + (b2 - 128)) * 64 + (b3 - 128)) :: ·) := by
  unfold utf8Detoks
  rw [utf8Run_none_byte, if_neg (by omega), if_neg (by omega),
    if_neg (by omega), if_pos hb2, utf8Run_some_byte,
    contVal_of_range hc1 hc2]
  show utf8Run (some ((b - 224) * 64 + (b2 - 128), 1)) (.byte b3 :: rest) = _
  rw [utf8Run_some_byte, contVal_of_range hd1 hd2]
  rfl

theorem utf8Detoks_b4 {b b2 b3 b4 : Nat} (hb1 : 240 ≤ b) (hb2 : b < 248)
    (hc1 : 128 ≤ b2) (hc2 : b2 < 192) (hd1 : 128 ≤ b3) (hd2 : b3 < 192)
    (he1 : 128 ≤ b4) (he2 : b4 < 192) (rest : List PctTok) :
    utf8Detoks (.byte b :: .byte b2 :: .byte b3 :: .byte b4 :: rest) =
      (utf8Detoks rest).map
        (Char.ofNat ((((b - 240) * 64 + (b2 - 128)) * 64 + (b3 - 128)) * 64 +
          (b4 - 128)) :: ·) := by
  unfold utf8Detoks
  rw [utf8Run_none_byte, if_neg (by omega), if_neg (by omega),
    if_neg (by omega), if_neg (by omega), if_pos hb2, utf8Run_some_byte,
    contVal_of_range hc1 hc2]
  show utf8Run (some ((b - 240) * 64 + (b2 - 128), 2)) (.byte b3 :: .byte b4 :: rest) = _
  rw [utf8Run_some_byte, contVal_of_range hd1 hd2]
  show utf8Run (some (((b - 240) * 64 + (b2 - 128)) * 64 + (b3 - 128), 1)) (.byte b4 :: rest) = _
  rw [utf8Run_some_byte, contVal_of_range he1 he2]
  rfl

/-- The token list a character encodes to. -/
def encToks (c : Char) : List PctTok :=
  if isUnreservedChar c then [.raw c]
  else (utf8BytesOfCodepoint c.toNat).map PctTok.byte

theorem utf8Bytes_lt (c : Char) :
    ∀ b ∈ utf8BytesOfCodepoint c.toNat, b < 256 := by
  have hlt := char_toNat_lt c
  intro b hb
  unfold utf8BytesOfCodepoint at hb
  by_cases h1 : c.toNat < 128
  · rw [if_pos h1] at hb
    simp only [List.mem_singleton] at hb
    omega
  · rw [if_neg h1] at hb
    by_cases h2 : c.toNat < 2048
    · rw [if_pos h2] at hb
      simp only [List.mem_cons, List.mem_singleton, List.not_mem_nil,
        or_false] at hb
      rcases hb with hb | hb <;> omega
    · rw [if_neg h2] at hb
      by_cases h3 : c.toNat < 65536
      · rw [if_pos h3] at hb
        simp only [List.mem_cons, List.not_mem_nil, or_false] at hb
        rcases hb with hb | hb | hb <;> omega
      · rw [if_neg h3] at hb
        simp only [List.mem_cons, List.not_mem_nil, or_false] at hb
        rcases hb with hb | hb | hb | hb <;> omega

theorem pctToks_encBytes (bs : List Nat) (hbs : ∀ b ∈ bs, b < 256)
    (t : List Char) :
    pctToks ((bs.map pctEncodeByte).flatten ++ t) =
      (pctToks t).map ((bs.map PctTok.byte) ++ ·) := by
  induction bs with
  | nil =>
    simp only [List.map_nil, List.flatten_nil, List.nil_append]
    cases pctToks t with
    | none => rfl
    | some ts => rfl
  | cons b bs ih =>
    simp only [List.map_cons, List.flatten_cons, List.append_assoc]
    rw [pctToks_encByte (hbs b (List.mem_cons_self _ _)),
      ih (fun b2 hb2 => hbs b2 (List.mem_cons_of_mem _ hb2)),
      Option.map_map]
    rfl

theorem utf8Detoks_encToks (c : Char) (ts : List PctTok) :
    utf8Detoks (encToks c ++ ts) = (utf8Detoks ts).map (c :: ·) := by
  unfold encToks
  by_cases h : isUnreservedChar c = true
  · rw [if_pos h]
    exact utf8Run_none_raw c ts
  · rw [if_neg h]
    have hlt := char_toNat_lt c
    unfold utf8BytesOfCodepoint
    by_cases h1 : c.toNat < 128
    · rw [if_pos h1]
      show utf8Detoks (.byte c.toNat :: ts) = _
      rw [utf8Detoks_b1 h1, Char.ofNat_toNat]
    · rw [if_neg h1]
      by_cases h2 : c.toNat < 2048
      · rw [if_pos h2]
        show utf8Detoks
          (.byte (192 + c.toNat / 64) :: .byte (128 + c.toNat % 64) :: ts) = _
        rw [utf8Detoks_b2 (by omega) (by omega) (by omega) (by omega)]
        have hv : (192 + c.toNat / 64 - 192) * 64 + (128 + c.toNat % 64 - 128) =
            c.toNat := by omega
        rw [hv, Char.ofNat_toNat]
      · rw [if_neg h2]
        by_cases h3 : c.toNat < 65536
        · rw [if_pos h3]
          show utf8Detoks (.byte (224 + c.toNat / 4096) ::
            .byte (128 + c.toNat / 64 % 64) :: .byte (128 + c.toNat % 64) :: ts) = _
          rw [utf8Detoks_b3 (by omega) (by omega) (by omega) (by omega)
            (by omega) (by omega)]
          have hv : ((224 + c.toNat / 4096 - 224) * 64 +
              (128 + c.toNat / 64 % 64 - 128)) * 64 +
              (128 + c.toNat % 64 - 128) = c.toNat := by omega
          rw [hv, Char.ofNat_toNat]
        · rw [if_neg h3]
          show utf8Detoks (.byte (240 + c.toNat / 262144) ::
            .byte (128 + c.toNat / 4096 % 64) :: .byte (128 + c.toNat / 64 % 64) ::
            .byte (128 + c.toNat % 64) :: ts) = _
          rw [utf8Detoks_b4 (by omega) (by omega) (by omega) (by omega)
            (by omega) (by omega) (by omega) (by omega)]
          have hv : (((240 + c.toNat / 262144 - 240) * 64 +
              (128 + c.toNat / 4096 % 64 - 128)) * 64 +
              (128 + c.toNat / 64 % 64 - 128)) * 64 +
              (128 + c.toNat % 64 - 128) = c.toNat := by omega
          rw [hv, Char.ofNat_toNat]

theorem pctToks_encodeChar (c : Char) (t : List Char) :
    pctToks (encodeChar c ++ t) = (pctToks t).map (encToks c ++ ·) := by
  unfold encodeChar encToks
  by_cases h : isUnreservedChar c = true
  · rw [if_pos h, if_pos h]
    have hc : ¬ c = '%' := by
      intro he
      subst he
      exact absurd h (by decide)
    show pctToks (c :: t) = _
    rw [pctToks_raw hc]
    rfl
  · rw [if_neg h, if_neg h]
    exact pctToks_encBytes _ (utf8Bytes_lt c) t

theorem pctDecode_encode_list : ∀ l : List Char,
    pctDecode ((l.map encodeChar).flatten) = some l
  | [] => rfl
  | c :: l => by
    show pctDecode (encodeChar c ++ (l.map encodeChar).flatten) = _
    have ih := pctDecode_encode_list l
    unfold pctDecode at ih ⊢
    rw [pctToks_encodeChar]
    cases hJ : pctToks ((l.map encodeChar).flatten) with
    | none => rw [hJ] at ih; cases ih
    | some ts =>
      rw [hJ] at ih
      simp only [Option.some_bind] at ih
      simp only [Option.map_some', Option.some_bind]
      rw [utf8Detoks_encToks, ih]
      rfl

/-- The percent-decoding of an encodeURIComponent image recovers the
original string: the encoder and decoder models round-trip. -/
theorem decodeURIComponent_encodeURIComponent (s : String) :
    decodeURIComponentModel (encodeURIComponent s) = some s := by
  unfold decodeURIComponentModel encodeURIComponent
  show (pctDecode ((s.data.map encodeChar).flatten)).map _ = _
  rw [pctDecode_encode_list]
  rfl

theorem encodeChar_chars {x c : Char} (hx : x ∈ encodeChar c) :
    (isUnreservedChar x = true ∧ x = c) ∨ x = '%' ∨
      ∃ n, n < 16 ∧ x = hexDigitChar n := by
  unfold encodeChar at hx
  by_cases h : isUnreservedChar c = true
  · rw [if_pos h] at hx
    simp only [List.mem_singleton] at hx
    subst hx
    exact Or.inl ⟨h, rfl⟩
  · rw [if_neg h] at hx
    rw [List.mem_flatten] at hx
    obtain ⟨l, hl, hxl⟩ := hx
    rw [List.mem_map] at hl
    obtain ⟨b, hb, rfl⟩ := hl
    have hb256 : b < 256 := utf8Bytes_lt c b hb
    simp only [pctEncodeByte, List.mem_cons, List.not_mem_nil, or_false] at hxl
    rcases hxl with rfl | rfl | rfl
    · exact Or.inr (Or.inl rfl)
    · exact Or.inr (Or.inr ⟨b / 16, by omega, rfl⟩)
    · exact Or.inr (Or.inr ⟨b % 16, by omega, rfl⟩)

theorem encodeURIComponent_no_amp (s : String) :
    ('&' : Char) ∉ (encodeURIComponent s).data := by
  intro hx
  have hx2 : ('&' : Char) ∈ (s.data.map encodeChar).flatten := hx
  rw [List.mem_flatten] at hx2
  obtain ⟨l, hl, hxl⟩ := hx2
  rw [List.mem_map] at hl
  obtain ⟨c, hc, rfl⟩ := hl
  rcases encodeChar_chars hxl with ⟨h1, _⟩ | h1 | ⟨n, hn, he⟩
  · exact absurd h1 (by decide)
  · exact absurd h1 (by decide)
  · have hall : ∀ n, n < 16 → ¬ (('&' : Char) = hexDigitChar n) := by decide
    exact hall n hn he

theorem splitOnChar_cons (c x : Char) (xs : List Char) :
    splitOnChar c (x :: xs) =
      if x = c then [] :: splitOnChar c xs
      else
        match splitOnChar c xs with
        | [] => [[x]]
        | p :: ps => (x :: p) :: ps := by
  rw [splitOnChar.eq_def]

theorem splitOnChar_not_mem {c : Char} :
    ∀ {l : List Char}, c ∉ l → splitOnChar c l = [l]
  | [], _ => rfl
  | x :: xs, h => by
    have hx : ¬ x = c := fun he => h (he ▸ List.mem_cons_self x xs)
    have hxs : c ∉ xs := fun hm => h (List.mem_cons_of_mem _ hm)
    rw [splitOnChar_cons, if_neg hx, splitOnChar_not_mem hxs]

theorem splitOnChar_append {c : Char} :
    ∀ {pre : List Char}, c ∉ pre → ∀ rest,
      splitOnChar c (pre ++ c :: rest) = pre :: splitOnChar c rest
  | [], _, rest => by
    show splitOnChar c (c :: rest) = _
    rw [splitOnChar_cons, if_pos rfl]
  | x :: pre, h, rest => by
    have hx : ¬ x = c := fun he => h (he ▸ List.mem_cons_self x pre)
    have hpre : c ∉ pre := fun hm => h (List.mem_cons_of_mem _ hm)
    show splitOnChar c (x :: (pre ++ c :: rest)) = _
    rw [splitOnChar_cons, if_neg hx, splitOnChar_append hpre rest]

theorem query_split (p s k : String) :
    splitOnChar '&'
      ("chatWith=" ++ encodeURIComponent p ++ "&s=" ++
        encodeURIComponent s ++ "&k=" ++ encodeURIComponent k).data =
      ["chatWith=".data ++ (encodeURIComponent p).data,
       's' :: '=' :: (encodeURIComponent s).data,
       'k' :: '=' :: (encodeURIComponent k).data] := by
  have hdata : ("chatWith=" ++ encodeURIComponent p ++ "&s=" ++
      encodeURIComponent s ++ "&k=" ++ encodeURIComponent k).data =
      ("chatWith=".data ++ (encodeURIComponent p).data) ++ '&' ::
        (('s' :: '=' :: (encodeURIComponent s).data) ++ '&' ::
          ('k' :: '=' :: (encodeURIComponent k).data)) := by
    simp only [String.data_append, List.append_assoc]
    rfl
  rw [hdata]
  rw [splitOnChar_append ?h1, splitOnChar_append ?h2, splitOnChar_not_mem ?h3]
  case h1 =>
    intro hm
    rcases List.mem_append.mp hm with hm | hm
    · exact absurd hm (by decide)
    · exact encodeURIComponent_no_amp p hm
  case h2 =>
    intro hm
    simp only [List.mem_cons] at hm
    rcases hm with hm | hm | hm
    · exact absurd hm (by decide)
    · exact absurd hm (by decide)
    · exact encodeURIComponent_no_amp s hm
  case h3 =>
    intro hm
    simp only [List.mem_cons] at hm
    rcases hm with hm | hm | hm
    · exact absurd hm (by decide)
    · exact absurd hm (by decide)
    · exact encodeURIComponent_no_amp k hm

/-- C5: formatChatLink on the concrete example produces exactly the
documented URL, and in general the link is the root, a question mark and
the three query parameters in order, splitting the query on ampersands
recovers the three name=value pieces, and percent-decoding each encoded
value yields the original field (round-trip). -/
theorem formatChatLink_format_and_round_trip :
    formatChatLink "https://x/" "pubA" "secretB" "id123" =
      "https://x/?chatWith=pubA&s=secretB&k=id123" ∧
    ∀ root pub secret linkId : String,
      formatChatLink root pub secret linkId =
        root ++ "?" ++ ("chatWith=" ++ encodeURIComponent pub ++ "&s=" ++
          encodeURIComponent secret ++ "&k=" ++ encodeURIComponent linkId) ∧
      splitOnChar '&'
        ("chatWith=" ++ encodeURIComponent pub ++ "&s=" ++
          encodeURIComponent secret ++ "&k=" ++ encodeURIComponent linkId).data =
        ["chatWith=".data ++ (encodeURIComponent pub).data,
         's' :: '=' :: (encodeURIComponent secret).data,
         'k' :: '=' :: (encodeURIComponent linkId).data] ∧
      decodeURIComponentModel (encodeURIComponent pub) = some pub ∧
      decodeURIComponentModel (encodeURIComponent secret) = some secret ∧
      decodeURIComponentModel (encodeURIComponent linkId) = some linkId := by
  refine ⟨by decide, fun root pub secret linkId => ⟨?_, query_split pub secret linkId,
    decodeURIComponent_encodeURIComponent pub,
    decodeURIComponent_encodeURIComponent secret,
    decodeURIComponent_encodeURIComponent linkId⟩⟩
  apply string_ext
  simp only [formatChatLink, String.data_append, List.append_assoc]
  rfl

/- The Chat constructor and the invite-link join flow. -/

/-- Modelled from the spec: util.getUrlParameter (util.js is not among the
source files; section 4.5 of the spec describes the joiner as parsing the
URL query for the chatWith, s and k parameters).  Splits the query string
on ampersands, finds the first name=value piece for the requested name and
percent-decodes its value; none models the JS undefined for an absent
parameter. -/
def getUrlParameter (name query : String) : Option String :=
  match (splitOnChar '&' query.data).find?
      (fun piece => (name.data ++ ['=']).isPrefixOf piece) with
  | some piece =>
    (pctDecode (piece.drop (name.length + 1))).map fun l => (⟨l⟩ : String)
  | none => none

/-- JS truthiness of an optional string: present and nonempty. -/
def truthy : Option String → Bool
  | some s => !(decide (s = ""))
  | none => false

/-- The participants option of the Chat constructor: absent, a single
public key string, or an array of public key strings. -/
inductive Participants where
  | undefinedVal
  | single (pub : String)
  | multi (pubs : List String)

/-- The externally observable actions of the Chat constructor, in program
order: publishing the local epub, a store write into the local user
namespace, registering the subscription to the link owner's
chatLinks/(linkId)/encryptedSharedKey node, and an addPub call (whose own
writes and subscriptions happen asynchronously after the constructor). -/
inductive CEv where
  | putEpub
  | storeWrite (path : GunPath) (v : GunVal)
  | subscribeSharedKey (ownerPub linkId : String)
  | addPub (pub : String)
deriving DecidableEq

/-- The store writes a save() call performs, given the participant list at
the moment of the call (stops at a participant whose epub never arrives,
where the loop suspends). -/
def saveEvsLoop : ChatSt → List String → List CEv
  | _, [] => []
  | c, pub :: rest =>
    match c.getOurSecretChatId pub with
    | none => []
    | some ic =>
      CEv.storeWrite ["chats", ic.1, "msgs", "a"] GunVal.null ::
        saveEvsLoop ic.2 rest

/-- The writes of one save() call on a fresh instance knowing the given
participants. -/
def saveEvs (gun : GunUsers) (key : KeyPair) (pubs : List String) : List CEv :=
  saveEvsLoop (mkChat gun key false pubs) pubs

/-- The pubs a Participants value contributes to this.secrets. -/
def pubsOf : Participants → List String
  | .undefinedVal => []
  | .single p => [p]
  | .multi ps => ps

/-- The addPub calls the constructor issues. -/
def addPubEvs : Participants → List CEv
  | .undefinedVal => []
  | .single p => [CEv.addPub p]
  | .multi ps => ps.map CEv.addPub

/-- The Chat constructor as the ordered list of its observable actions:
publish epub; when a chatLink with a query part is given, read chatWith
(overriding options.participants), and when it differs from the local pub
and both s and k are truthy, call save() first (on the participant set at
that moment, which is still empty) and then register the
encryptedSharedKey subscription, marking saved; then addPub for each
participant; finally, when not already saved, call save() again. -/
def constructorTrace (gun : GunUsers) (key : KeyPair) (chatLink : Option String)
    (participants0 : Participants) : List CEv :=
  match chatLink with
  | none =>
    CEv.putEpub :: (addPubEvs participants0 ++
      saveEvs gun key (pubsOf participants0))
  | some link =>
    match splitOnChar '?' link.data with
    | [_, query] =>
      match getUrlParameter "chatWith" ⟨query⟩ with
      | some pub =>
        if pub ≠ key.pub then
          if truthy (getUrlParameter "s" ⟨query⟩) &&
              truthy (getUrlParameter "k" ⟨query⟩) then
            CEv.putEpub :: (saveEvs gun key [] ++
              (CEv.subscribeSharedKey pub
                  ((getUrlParameter "k" ⟨query⟩).getD "") ::
                addPubEvs (.single pub)))
          else
            CEv.putEpub :: (addPubEvs (.single pub) ++ saveEvs gun key [pub])
        else
          CEv.putEpub :: (addPubEvs (.single pub) ++ saveEvs gun key [pub])
      | none =>
        if truthy (getUrlParameter "s" ⟨query⟩) &&
            truthy (getUrlParameter "k" ⟨query⟩) then
          CEv.putEpub :: (saveEvs gun key [] ++
            [CEv.subscribeSharedKey ""
              ((getUrlParameter "k" ⟨query⟩).getD "")])
        else
          CEv.putEpub :: saveEvs gun key []
    | _ =>
      CEv.putEpub :: (addPubEvs participants0 ++
        saveEvs gun key (pubsOf participants0))

/-- C9 evaluated at a concrete join (the claimed behavior fails): for a
joiner with key keyW opening the owner pB's link carrying s and k, the
constructor calls save() before registering the subscription, but at that
moment this.secrets is empty, so the call performs no store write: the
whole trace up to the subscription registration contains no write at all,
and no placeholder is persisted before the subscription is registered. -/
theorem constructor_join_no_write_before_subscribe :
    constructorTrace gunW keyW (some "https://x/?chatWith=pB&s=sec1&k=id1")
        Participants.undefinedVal =
      [CEv.putEpub, CEv.subscribeSharedKey "pB" "id1", CEv.addPub "pB"] ∧
    (constructorTrace gunW keyW (some "https://x/?chatWith=pB&s=sec1&k=id1")
        Participants.undefinedVal).all
      (fun ev => match ev with
        | CEv.storeWrite _ _ => false
        | _ => true) = true := by
  constructor
  · decide
  · decide
